import Mathlib

/-!
# Verification of the SortingAlgorithms repository core

Shallow embedding of the five sorting algorithms of src/src/main.cpp
(bubble_sort, shaker_sort, selection_sort, insertion_sort, quicksort),
together with their observer-notification behaviour (the draw_array calls).

The sequence handle [first, last) is modelled as a Lean List over a linear
order; iterator positions become Nat indices into that list.  Each algorithm
returns the final list together with the instrumentation data the claims
need (notification counts, exchange counts, or a full event trace for
quicksort, whose notifications carry an explicit reported range).
-/

namespace SortingAlgorithms

open List

variable {α : Type*} [Inhabited α]

/-- Reading the element at position i (iterator dereference `*it`).
All reads performed by the algorithms are in bounds; the default value is
never observable in any reachable execution. -/
def idx (l : List α) (i : Nat) : α := l.getD i default

/-- In-place exchange of two positions (`std::swap(*a, *b)`). -/
def lswap (l : List α) (i j : Nat) : List α :=
  (l.set i (idx l j)).set j (idx l i)

theorem idx_eq_getElem (l : List α) (i : Nat) (h : i < l.length) :
    idx l i = l[i] := by
  simp [idx, List.getD_eq_getElem?_getD, List.getElem?_eq_getElem h]

theorem idx_set_self (l : List α) (i : Nat) (v : α) (h : i < l.length) :
    idx (l.set i v) i = v := by
  simp [idx, List.getD_eq_getElem?_getD, List.getElem?_set_self h]

theorem idx_set_ne (l : List α) (i j : Nat) (v : α) (h : j ≠ i) :
    idx (l.set i v) j = idx l j := by
  simp [idx, List.getD_eq_getElem?_getD, List.getElem?_set_ne (fun e => h e.symm)]

@[simp] theorem length_lswap (l : List α) (i j : Nat) :
    (lswap l i j).length = l.length := by
  simp [lswap]

theorem idx_lswap_fst (l : List α) (i j : Nat) (hi : i < l.length) :
    idx (lswap l i j) i = idx l j := by
  unfold lswap
  rcases eq_or_ne j i with rfl | h
  · rw [idx_set_self _ _ _ (by simpa using hi)]
  · rw [idx_set_ne _ _ _ _ (fun e => h e.symm), idx_set_self _ _ _ hi]

theorem idx_lswap_snd (l : List α) (i j : Nat) (hj : j < l.length) :
    idx (lswap l i j) j = idx l i := by
  unfold lswap
  rw [idx_set_self _ _ _ (by simpa using hj)]

theorem idx_lswap_other (l : List α) (i j k : Nat) (hki : k ≠ i) (hkj : k ≠ j) :
    idx (lswap l i j) k = idx l k := by
  unfold lswap
  rw [idx_set_ne _ _ _ _ hkj, idx_set_ne _ _ _ _ hki]

omit [Inhabited α] in
theorem cons_set_perm (x d : α) : ∀ (xs : List α) (m : Nat), m < xs.length →
    (xs.getD m d :: xs.set m x) ~ (x :: xs) := by
  intro xs
  induction xs with
  | nil => intro m h; simp at h
  | cons y t ih =>
    intro m h
    match m with
    | 0 => simpa using List.Perm.swap x y t
    | Nat.succ m =>
      have h' : m < t.length := by simpa using h
      calc (y :: t).getD (m + 1) d :: (y :: t).set (m + 1) x
          = t.getD m d :: y :: t.set m x := by simp
        _ ~ y :: t.getD m d :: t.set m x := List.Perm.swap _ _ _
        _ ~ y :: x :: t := List.Perm.cons y (ih m h')
        _ ~ x :: y :: t := List.Perm.swap _ _ _

theorem lswap_perm : ∀ (l : List α) (i j : Nat), i < l.length → j < l.length →
    lswap l i j ~ l := by
  intro l
  induction l with
  | nil => intro i j hi; simp at hi
  | cons x xs ih =>
    intro i j hi hj
    match i, j with
    | 0, 0 =>
      simp [lswap, idx]
    | 0, Nat.succ m =>
      have hm : m < xs.length := by simpa using hj
      have : lswap (x :: xs) 0 (m + 1) = xs.getD m default :: xs.set m x := by
        simp [lswap, idx]
      rw [this]
      exact cons_set_perm x default xs m hm
    | Nat.succ m, 0 =>
      have hm : m < xs.length := by simpa using hi
      have : lswap (x :: xs) (m + 1) 0 = xs.getD m default :: xs.set m x := by
        simp [lswap, idx]
      rw [this]
      exact cons_set_perm x default xs m hm
    | Nat.succ m, Nat.succ k =>
      have hm : m < xs.length := by simpa using hi
      have hk : k < xs.length := by simpa using hj
      have : lswap (x :: xs) (m + 1) (k + 1) = x :: lswap xs m k := by
        simp [lswap, idx]
      rw [this]
      exact List.Perm.cons x (ih m k hm hk)

variable [LinearOrder α]

/-- Monotonicity of positions implies sortedness of the list. -/
theorem sorted_of_idx_mono (l : List α)
    (h : ∀ p q, p < q → q < l.length → idx l p ≤ idx l q) :
    l.Sorted (· ≤ ·) := by
  rw [List.Sorted, List.pairwise_iff_getElem]
  intro p q hp hq hpq
  rw [← idx_eq_getElem l p hp, ← idx_eq_getElem l q hq]
  exact h p q hpq hq

/-- A sorted list is monotone at the level of positions. -/
theorem idx_mono_of_sorted (l : List α) (h : l.Sorted (· ≤ ·)) :
    ∀ p q, p < q → q < l.length → idx l p ≤ idx l q := by
  intro p q hpq hq
  rw [idx_eq_getElem l p (hpq.trans hq), idx_eq_getElem l q hq]
  exact List.pairwise_iff_getElem.mp h p q (hpq.trans hq) hq hpq

/-!
## Bubble sort (main.cpp, bubble_sort)

The C++ loop structure:
```
bool swapped = true;
for (auto i = first; i < last && swapped; ++i) {
  swapped = false;
  for (auto current = first; current < last - 1 - (i - first); ++current)
    if (*current > *(current + 1)) {
      std::swap(*current, *(current + 1)); swapped = true;
      draw_array(first, last, ...);
    }
}
```
Positions are offsets from first; n = last - first; the pass counter is
i - first; the inner bound is n - 1 - i.  A pass returns the new state,
the swapped flag and the number of draw_array notifications it issued.
-/

/-- One inner pass of bubble_sort: iterate current from c while
current < bound, comparing positions current and current + 1. -/
def bubbleInner (l : List α) (c bound : Nat) : List α × Bool × Nat :=
  if c < bound then
    if idx l (c + 1) < idx l c then
      let r := bubbleInner (lswap l c (c + 1)) (c + 1) bound
      (r.1, true, r.2.2 + 1)
    else
      bubbleInner l (c + 1) bound
  else (l, false, 0)
termination_by bound - c

/-- The outer loop of bubble_sort: pass counter i runs while i < n and the
previous pass swapped something. -/
def bubbleOuter (l : List α) (i n : Nat) : List α × Nat :=
  if i < n then
    let p := bubbleInner l 0 (n - 1 - i)
    if p.2.1 then
      let r := bubbleOuter p.1 (i + 1) n
      (r.1, p.2.2 + r.2)
    else (p.1, p.2.2)
  else (l, 0)
termination_by n - i

/-- bubble_sort over the whole range [first, last); returns the final state
and the total number of observer notifications (draw_array calls). -/
def bubble_sort (l : List α) : List α × Nat := bubbleOuter l 0 l.length

theorem bubbleInner_step_swap (l : List α) (c b : Nat) (hc : c < b)
    (hlt : idx l (c + 1) < idx l c) :
    bubbleInner l c b = ((bubbleInner (lswap l c (c + 1)) (c + 1) b).1, true,
      (bubbleInner (lswap l c (c + 1)) (c + 1) b).2.2 + 1) := by
  rw [bubbleInner]
  simp [hc, hlt]

theorem bubbleInner_step_skip (l : List α) (c b : Nat) (hc : c < b)
    (hlt : ¬ idx l (c + 1) < idx l c) :
    bubbleInner l c b = bubbleInner l (c + 1) b := by
  rw [bubbleInner]
  simp [hc, hlt]

theorem bubbleInner_step_done (l : List α) (c b : Nat) (hc : ¬ c < b) :
    bubbleInner l c b = (l, false, 0) := by
  rw [bubbleInner]
  simp [hc]

theorem bubbleInner_length (l : List α) (c b : Nat) :
    (bubbleInner l c b).1.length = l.length := by
  induction l, c, b using bubbleInner.induct with
  | case1 l c b hc hlt ih =>
    rw [bubbleInner_step_swap l c b hc hlt]
    simpa using ih
  | case2 l c b hc hlt ih =>
    rw [bubbleInner_step_skip l c b hc hlt]
    exact ih
  | case3 l c b hc =>
    rw [bubbleInner_step_done l c b hc]

theorem bubbleInner_perm (l : List α) (c b : Nat) (hb : b < l.length) :
    (bubbleInner l c b).1 ~ l := by
  induction l, c, b using bubbleInner.induct with
  | case1 l c b hc hlt ih =>
    rw [bubbleInner_step_swap l c b hc hlt]
    have hlen : b < (lswap l c (c + 1)).length := by simpa using hb
    exact (ih hlen).trans (lswap_perm l c (c + 1) (by omega) (by omega))
  | case2 l c b hc hlt ih =>
    rw [bubbleInner_step_skip l c b hc hlt]
    exact ih hb
  | case3 l c b hc =>
    rw [bubbleInner_step_done l c b hc]

theorem bubbleInner_frame (l : List α) (c b : Nat) :
    ∀ k, k < c ∨ b < k → idx (bubbleInner l c b).1 k = idx l k := by
  induction l, c, b using bubbleInner.induct with
  | case1 l c b hc hlt ih =>
    intro k hk
    rw [bubbleInner_step_swap l c b hc hlt]
    have h1 := ih k (by omega)
    simp only [h1]
    rw [idx_lswap_other l c (c + 1) k (by omega) (by omega)]
  | case2 l c b hc hlt ih =>
    intro k hk
    rw [bubbleInner_step_skip l c b hc hlt]
    exact ih k (by omega)
  | case3 l c b hc =>
    intro k _
    rw [bubbleInner_step_done l c b hc]

theorem bubbleInner_false_eq (l : List α) (c b : Nat)
    (h : (bubbleInner l c b).2.1 = false) : (bubbleInner l c b).1 = l := by
  induction l, c, b using bubbleInner.induct with
  | case1 l c b hc hlt ih =>
    rw [bubbleInner_step_swap l c b hc hlt] at h
    simp at h
  | case2 l c b hc hlt ih =>
    rw [bubbleInner_step_skip l c b hc hlt] at h ⊢
    exact ih h
  | case3 l c b hc =>
    rw [bubbleInner_step_done l c b hc]

theorem bubbleInner_false_sorted (l : List α) (c b : Nat)
    (h : (bubbleInner l c b).2.1 = false) :
    ∀ k, c ≤ k → k + 1 ≤ b → idx l k ≤ idx l (k + 1) := by
  induction l, c, b using bubbleInner.induct with
  | case1 l c b hc hlt ih =>
    rw [bubbleInner_step_swap l c b hc hlt] at h
    simp at h
  | case2 l c b hc hlt ih =>
    intro k hck hkb
    rw [bubbleInner_step_skip l c b hc hlt] at h
    rcases Nat.eq_or_lt_of_le hck with rfl | hck'
    · exact le_of_not_lt hlt
    · exact ih h k hck' hkb
  | case3 l c b hc =>
    intro k hck hkb
    omega

theorem bubbleInner_max (l : List α) (c b : Nat) (hb : b < l.length)
    (hcb : c ≤ b) (H : ∀ k, k < c → idx l k ≤ idx l c) :
    ∀ k, k < b → idx (bubbleInner l c b).1 k ≤ idx (bubbleInner l c b).1 b := by
  induction l, c, b using bubbleInner.induct with
  | case1 l c b hc hlt ih =>
    rw [bubbleInner_step_swap l c b hc hlt]
    refine ih (by simpa using hb) hc ?_
    intro k hk
    rcases Nat.lt_or_ge k c with hkc | hkc
    · rw [idx_lswap_other l c (c + 1) k (by omega) (by omega),
        idx_lswap_snd l c (c + 1) (by omega)]
      exact H k hkc
    · have hkc' : k = c := by omega
      subst hkc'
      rw [idx_lswap_fst l k (k + 1) (by omega),
        idx_lswap_snd l k (k + 1) (by omega)]
      exact le_of_lt hlt
  | case2 l c b hc hlt ih =>
    rw [bubbleInner_step_skip l c b hc hlt]
    refine ih hb hc ?_
    intro k hk
    rcases Nat.lt_or_ge k c with hkc | hkc
    · exact (H k hkc).trans (le_of_not_lt hlt)
    · have hkc' : k = c := by omega
      subst hkc'
      exact le_of_not_lt hlt
  | case3 l c b hc =>
    rw [bubbleInner_step_done l c b hc]
    have hcb' : c = b := by omega
    subst hcb'
    exact H

theorem bubbleInner_valuesFrom (l : List α) (c b : Nat) (hb : b < l.length) :
    ∀ p, p ≤ b → ∃ k, k ≤ b ∧ idx (bubbleInner l c b).1 p = idx l k := by
  induction l, c, b using bubbleInner.induct with
  | case1 l c b hc hlt ih =>
    intro p hp
    rw [bubbleInner_step_swap l c b hc hlt]
    obtain ⟨k, hk, hval⟩ := ih (by simpa using hb) p hp
    rcases eq_or_ne k c with rfl | hkc
    · exact ⟨k + 1, by omega,
        by rw [hval, idx_lswap_fst l k (k + 1) (hc.trans hb)]⟩
    rcases eq_or_ne k (c + 1) with rfl | hkc1
    · exact ⟨c, by omega,
        by rw [hval, idx_lswap_snd l c (c + 1) (by omega)]⟩
    · exact ⟨k, hk, by rw [hval, idx_lswap_other l c (c + 1) k hkc hkc1]⟩
  | case2 l c b hc hlt ih =>
    intro p hp
    rw [bubbleInner_step_skip l c b hc hlt]
    exact ih hb p hp
  | case3 l c b hc =>
    intro p hp
    rw [bubbleInner_step_done l c b hc]
    exact ⟨p, hp, rfl⟩

/-- Adjacent comparisons up to m give monotonicity up to m. -/
theorem idx_mono_of_adjacent (l : List α) (m : Nat)
    (h : ∀ k, k + 1 ≤ m → idx l k ≤ idx l (k + 1)) :
    ∀ p q, p < q → q ≤ m → idx l p ≤ idx l q := by
  intro p q hpq hq
  induction q with
  | zero => omega
  | succ q ih =>
    rcases Nat.lt_or_ge p q with hpq' | hpq'
    · exact (ih hpq' (by omega)).trans (h q hq)
    · have : p = q := by omega
      subst this
      exact h p hq

theorem bubbleOuter_step_cont (l : List α) (i n : Nat) (hi : i < n)
    (hsw : (bubbleInner l 0 (n - 1 - i)).2.1 = true) :
    bubbleOuter l i n =
      ((bubbleOuter (bubbleInner l 0 (n - 1 - i)).1 (i + 1) n).1,
       (bubbleInner l 0 (n - 1 - i)).2.2 +
         (bubbleOuter (bubbleInner l 0 (n - 1 - i)).1 (i + 1) n).2) := by
  rw [bubbleOuter]
  simp [hi, hsw]

theorem bubbleOuter_step_stop (l : List α) (i n : Nat) (hi : i < n)
    (hsw : (bubbleInner l 0 (n - 1 - i)).2.1 = false) :
    bubbleOuter l i n =
      ((bubbleInner l 0 (n - 1 - i)).1, (bubbleInner l 0 (n - 1 - i)).2.2) := by
  rw [bubbleOuter]
  simp [hi, hsw]

theorem bubbleOuter_step_done (l : List α) (i n : Nat) (hi : ¬ i < n) :
    bubbleOuter l i n = (l, 0) := by
  rw [bubbleOuter]
  simp [hi]

/-- Main invariant of the outer loop of bubble_sort: after i passes, the last
i positions are sorted and dominate all earlier positions; the loop then
produces a sorted permutation. -/
theorem bubbleOuter_inv : ∀ (l : List α) (i n : Nat), l.length = n → i ≤ n →
    (∀ p q, n - i ≤ p → p < q → q < n → idx l p ≤ idx l q) →
    (∀ p q, p < n - i → n - i ≤ q → q < n → idx l p ≤ idx l q) →
    (bubbleOuter l i n).1.Sorted (· ≤ ·) ∧ (bubbleOuter l i n).1 ~ l := by
  intro l i n
  induction l, i, n using bubbleOuter.induct with
  | case1 l i n hi p hsw ih =>
    intro hlen hin Ha Hb
    simp only [p] at hsw ih
    have hb_len : n - 1 - i < l.length := by omega
    have hlen1 : (bubbleInner l 0 (n - 1 - i)).1.length = n := by
      rw [bubbleInner_length]; exact hlen
    rw [bubbleOuter_step_cont l i n hi hsw]
    have frame := bubbleInner_frame l 0 (n - 1 - i)
    have vfrom := bubbleInner_valuesFrom l 0 (n - 1 - i) hb_len
    have hmax := bubbleInner_max l 0 (n - 1 - i) hb_len (Nat.zero_le _)
      (fun k hk => absurd hk (Nat.not_lt_zero k))
    have Ha' : ∀ p q, n - (i + 1) ≤ p → p < q → q < n →
        idx (bubbleInner l 0 (n - 1 - i)).1 p ≤
          idx (bubbleInner l 0 (n - 1 - i)).1 q := by
      intro p q hp hpq hq
      have hqf : idx (bubbleInner l 0 (n - 1 - i)).1 q = idx l q :=
        frame q (Or.inr (by omega))
      rcases Nat.eq_or_lt_of_le hp with hpb | hpb
      · obtain ⟨k, hk, hval⟩ := vfrom p (by omega)
        rw [hval, hqf]
        exact Hb k q (by omega) (by omega) hq
      · rw [hqf, frame p (Or.inr (by omega))]
        exact Ha p q (by omega) hpq hq
    have Hb' : ∀ p q, p < n - (i + 1) → n - (i + 1) ≤ q → q < n →
        idx (bubbleInner l 0 (n - 1 - i)).1 p ≤
          idx (bubbleInner l 0 (n - 1 - i)).1 q := by
      intro p q hp hq hqn
      rcases Nat.eq_or_lt_of_le hq with hqb | hqb
      · have : q = n - 1 - i := by omega
        subst this
        exact hmax p (by omega)
      · obtain ⟨k, hk, hval⟩ := vfrom p (by omega)
        rw [hval, frame q (Or.inr (by omega))]
        exact Hb k q (by omega) (by omega) hqn
    obtain ⟨hs, hperm⟩ := ih hlen1 (by omega) Ha' Hb'
    exact ⟨hs, hperm.trans (bubbleInner_perm l 0 (n - 1 - i) hb_len)⟩
  | case2 l i n hi p hsw =>
    intro hlen hin Ha Hb
    simp only [p] at hsw
    have hfalse : (bubbleInner l 0 (n - 1 - i)).2.1 = false := by
      simpa using hsw
    rw [bubbleOuter_step_stop l i n hi hfalse,
      bubbleInner_false_eq l 0 (n - 1 - i) hfalse]
    refine ⟨sorted_of_idx_mono l ?_, List.Perm.refl l⟩
    intro p q hpq hq
    rw [hlen] at hq
    have adj := bubbleInner_false_sorted l 0 (n - 1 - i) hfalse
    have mono := idx_mono_of_adjacent l (n - 1 - i)
      (fun k hk => adj k (Nat.zero_le k) hk)
    rcases Nat.lt_or_ge q (n - i) with hqb | hqb
    · exact mono p q hpq (by omega)
    · rcases Nat.lt_or_ge p (n - i) with hpi | hpi
      · exact Hb p q hpi hqb hq
      · exact Ha p q hpi hpq hq
  | case3 l i n hi =>
    intro hlen hin Ha Hb
    rw [bubbleOuter_step_done l i n hi]
    refine ⟨sorted_of_idx_mono l ?_, List.Perm.refl l⟩
    intro p q hpq hq
    rw [hlen] at hq
    exact Ha p q (by omega) hpq hq

/-- bubble_sort produces a sorted permutation of its input. -/
theorem bubble_sort_sorted_perm (l : List α) :
    (bubble_sort l).1.Sorted (· ≤ ·) ∧ (bubble_sort l).1 ~ l := by
  refine bubbleOuter_inv l 0 l.length rfl (Nat.zero_le _) ?_ ?_
  · intro p q hp hpq hq
    omega
  · intro p q hp hq hqn
    omega

/-- On an input whose adjacent pairs are already ordered, one inner pass of
bubble_sort makes no exchange, leaves the list unchanged and issues no
notification. -/
theorem bubbleInner_of_sorted (l : List α) (c b : Nat) (hb : b < l.length)
    (h : ∀ k, k + 1 < l.length → idx l k ≤ idx l (k + 1)) :
    bubbleInner l c b = (l, false, 0) := by
  induction l, c, b using bubbleInner.induct with
  | case1 l c b hc hlt ih =>
    exact absurd (h c (by omega)) (not_le_of_lt hlt)
  | case2 l c b hc hlt ih =>
    rw [bubbleInner_step_skip l c b hc hlt]
    exact ih hb h
  | case3 l c b hc =>
    exact bubbleInner_step_done l c b hc

/-- On an already-sorted input, bubble_sort leaves the list unchanged and
issues zero notifications: the first pass makes no swap, so the early-exit
flag stops the outer loop. -/
theorem bubble_sort_of_sorted (l : List α) (h : l.Sorted (· ≤ ·)) :
    bubble_sort l = (l, 0) := by
  unfold bubble_sort
  rcases Nat.eq_zero_or_pos l.length with h0 | hpos
  · rw [bubbleOuter_step_done _ _ _ (by omega)]
  · have hadj : ∀ k, k + 1 < l.length → idx l k ≤ idx l (k + 1) :=
      fun k hk => idx_mono_of_sorted l h k (k + 1) (Nat.lt_succ_self k) hk
    have hin := bubbleInner_of_sorted l 0 (l.length - 1 - 0) (by omega) hadj
    rw [bubbleOuter_step_stop l 0 l.length hpos (by rw [hin]), hin]

/-!
## Insertion sort (main.cpp, insertion_sort)

```
for (auto index = first + 1; index < last; ++index) {
  const auto current_val = *index;
  auto inserted_pos = index;
  while (inserted_pos > first && *(inserted_pos - 1) > current_val) {
    *inserted_pos = *(inserted_pos - 1);
    --inserted_pos;
    draw_array(first, last, ...);
  }
  *inserted_pos = current_val;
  draw_array(first, last, ...);
}
```
-/

/-- The shifting loop of insertion_sort: while pos > first and the value to
the left is greater than v, copy it one slot right and notify.  Returns the
new state, the final hole position and the notification count. -/
def insShift (l : List α) (pos : Nat) (v : α) : List α × Nat × Nat :=
  if 0 < pos ∧ v < idx l (pos - 1) then
    let r := insShift (l.set pos (idx l (pos - 1))) (pos - 1) v
    (r.1, r.2.1, r.2.2 + 1)
  else (l, pos, 0)
termination_by pos

/-- The outer loop of insertion_sort: after each element's shifting loop the
held value is written into its hole and one more notification is issued,
unconditionally. -/
def insGo (l : List α) (index n : Nat) : List α × Nat :=
  if index < n then
    let s := insShift l index (idx l index)
    let r := insGo (s.1.set s.2.1 (idx l index)) (index + 1) n
    (r.1, s.2.2 + 1 + r.2)
  else (l, 0)
termination_by n - index

/-- insertion_sort over the whole range [first, last); returns the final
state and the total number of observer notifications. -/
def insertion_sort (l : List α) : List α × Nat := insGo l 1 l.length

theorem insShift_step (l : List α) (pos : Nat) (v : α)
    (h : 0 < pos ∧ v < idx l (pos - 1)) :
    insShift l pos v =
      ((insShift (l.set pos (idx l (pos - 1))) (pos - 1) v).1,
       (insShift (l.set pos (idx l (pos - 1))) (pos - 1) v).2.1,
       (insShift (l.set pos (idx l (pos - 1))) (pos - 1) v).2.2 + 1) := by
  rw [insShift]
  simp [h]

theorem insShift_done (l : List α) (pos : Nat) (v : α)
    (h : ¬ (0 < pos ∧ v < idx l (pos - 1))) :
    insShift l pos v = (l, pos, 0) := by
  rw [insShift]
  simp [h]

theorem insShift_step_list (l : List α) (pos : Nat) (v : α)
    (h : 0 < pos ∧ v < idx l (pos - 1)) :
    (insShift l pos v).1 =
      (insShift (l.set pos (idx l (pos - 1))) (pos - 1) v).1 := by
  rw [insShift_step l pos v h]

theorem insShift_step_pos (l : List α) (pos : Nat) (v : α)
    (h : 0 < pos ∧ v < idx l (pos - 1)) :
    (insShift l pos v).2.1 =
      (insShift (l.set pos (idx l (pos - 1))) (pos - 1) v).2.1 := by
  rw [insShift_step l pos v h]

theorem insShift_done_list (l : List α) (pos : Nat) (v : α)
    (h : ¬ (0 < pos ∧ v < idx l (pos - 1))) : (insShift l pos v).1 = l := by
  rw [insShift_done l pos v h]

theorem insShift_done_pos (l : List α) (pos : Nat) (v : α)
    (h : ¬ (0 < pos ∧ v < idx l (pos - 1))) : (insShift l pos v).2.1 = pos := by
  rw [insShift_done l pos v h]

theorem insShift_length (l : List α) (pos : Nat) (v : α) :
    (insShift l pos v).1.length = l.length := by
  induction l, pos, v using insShift.induct with
  | case1 l pos v h ih =>
    rw [insShift_step l pos v h]
    simpa using ih
  | case2 l pos v h =>
    rw [insShift_done l pos v h]

theorem insShift_pos_le (l : List α) (pos : Nat) (v : α) :
    (insShift l pos v).2.1 ≤ pos := by
  induction l, pos, v using insShift.induct with
  | case1 l pos v h ih =>
    rw [insShift_step l pos v h]
    exact le_trans ih (by omega)
  | case2 l pos v h =>
    rw [insShift_done l pos v h]

theorem insShift_frame (l : List α) (pos : Nat) (v : α) :
    ∀ k, k < (insShift l pos v).2.1 ∨ pos < k →
      idx (insShift l pos v).1 k = idx l k := by
  induction l, pos, v using insShift.induct with
  | case1 l pos v h ih =>
    intro k hk
    rw [insShift_step_pos l pos v h] at hk
    have hple := insShift_pos_le (l.set pos (idx l (pos - 1))) (pos - 1) v
    have hk2 : k < (insShift (l.set pos (idx l (pos - 1))) (pos - 1) v).2.1 ∨
        pos - 1 < k := by omega
    rw [insShift_step_list l pos v h, ih k hk2,
      idx_set_ne _ _ _ _ (by omega)]
  | case2 l pos v h =>
    intro k hk
    rw [insShift_done_list l pos v h]

theorem insShift_shifted (l : List α) (pos : Nat) (v : α)
    (hpos : pos < l.length) :
    ∀ k, (insShift l pos v).2.1 < k → k ≤ pos →
      idx (insShift l pos v).1 k = idx l (k - 1) := by
  induction l, pos, v using insShift.induct with
  | case1 l pos v h ih =>
    intro k hk1 hk2
    rw [insShift_step_pos l pos v h] at hk1
    rw [insShift_step_list l pos v h]
    rcases Nat.lt_or_ge k pos with hkp | hkp
    · rw [ih (by simp; omega) k hk1 (by omega),
        idx_set_ne _ _ _ _ (by omega)]
    · have hkp' : k = pos := by omega
      subst hkp'
      have hfr := insShift_frame (l.set k (idx l (k - 1))) (k - 1) v
      rw [hfr k (Or.inr (by omega)), idx_set_self _ _ _ hpos]
  | case2 l pos v h =>
    intro k hk1 hk2
    rw [insShift_done_pos l pos v h] at hk1
    omega

theorem insShift_stop (l : List α) (pos : Nat) (v : α) :
    (insShift l pos v).2.1 = 0 ∨ idx l ((insShift l pos v).2.1 - 1) ≤ v := by
  induction l, pos, v using insShift.induct with
  | case1 l pos v h ih =>
    rw [insShift_step_pos l pos v h]
    rcases ih with h0 | hle
    · exact Or.inl h0
    · refine Or.inr ?_
      have hr := insShift_pos_le (l.set pos (idx l (pos - 1))) (pos - 1) v
      rwa [idx_set_ne _ _ _ _ (by omega)] at hle
  | case2 l pos v h =>
    rw [insShift_done_pos l pos v h]
    rcases Nat.eq_zero_or_pos pos with h0 | hp
    · exact Or.inl h0
    · exact Or.inr (le_of_not_lt (fun hlt => h ⟨hp, hlt⟩))

theorem insShift_greater (l : List α) (pos : Nat) (v : α) :
    ∀ k, (insShift l pos v).2.1 ≤ k → k < pos → v < idx l k := by
  induction l, pos, v using insShift.induct with
  | case1 l pos v h ih =>
    intro k hk1 hk2
    rw [insShift_step_pos l pos v h] at hk1
    rcases Nat.lt_or_ge k (pos - 1) with hkp | hkp
    · have := ih k hk1 hkp
      rwa [idx_set_ne _ _ _ _ (by omega)] at this
    · have hkp' : k = pos - 1 := by omega
      subst hkp'
      exact h.2
  | case2 l pos v h =>
    intro k hk1 hk2
    rw [insShift_done_pos l pos v h] at hk1
    omega

omit [LinearOrder α] in
/-- Writing back the element a list already holds at a position changes
nothing. -/
theorem set_idx_self (l : List α) (i : Nat) (h : i < l.length) :
    l.set i (idx l i) = l := by
  apply List.ext_getElem?
  intro k
  rcases eq_or_ne k i with rfl | hk
  · rw [List.getElem?_set_self h, idx_eq_getElem l k h,
      List.getElem?_eq_getElem h]
  · rw [List.getElem?_set_ne (fun e => hk e.symm)]

/-- The net effect of the shifting loop followed by the hole write is the
same multiset as overwriting the original position. -/
theorem insShift_set_perm (l : List α) (pos : Nat) (v : α)
    (hpos : pos < l.length) :
    (insShift l pos v).1.set (insShift l pos v).2.1 v ~ l.set pos v := by
  induction l, pos, v using insShift.induct with
  | case1 l pos v h ih =>
    rw [insShift_step_list l pos v h, insShift_step_pos l pos v h]
    refine (ih (by simp; omega)).trans ?_
    have key : (l.set pos (idx l (pos - 1))).set (pos - 1) v =
        lswap (l.set pos v) (pos - 1) pos := by
      unfold lswap
      rw [idx_set_self _ _ _ hpos, idx_set_ne _ _ _ _ (by omega)]
      calc (l.set pos (idx l (pos - 1))).set (pos - 1) v
          = (l.set (pos - 1) v).set pos (idx l (pos - 1)) :=
            List.set_comm _ _ _ (by omega)
        _ = ((l.set (pos - 1) v).set pos v).set pos (idx l (pos - 1)) :=
            (List.set_set _ _ _ _).symm
        _ = ((l.set pos v).set (pos - 1) v).set pos (idx l (pos - 1)) := by
            rw [List.set_comm v v (l := l) (by omega : pos - 1 ≠ pos)]
    rw [key]
    exact lswap_perm _ _ _ (by simp; omega) (by simpa using hpos)
  | case2 l pos v h =>
    rw [insShift_done_list l pos v h, insShift_done_pos l pos v h]

theorem insGo_step (l : List α) (index n : Nat) (hi : index < n) :
    insGo l index n =
      ((insGo ((insShift l index (idx l index)).1.set
          (insShift l index (idx l index)).2.1 (idx l index)) (index + 1) n).1,
       (insShift l index (idx l index)).2.2 + 1 +
       (insGo ((insShift l index (idx l index)).1.set
          (insShift l index (idx l index)).2.1 (idx l index)) (index + 1) n).2) := by
  rw [insGo]
  simp [hi]

theorem insGo_done (l : List α) (index n : Nat) (hi : ¬ index < n) :
    insGo l index n = (l, 0) := by
  rw [insGo]
  simp [hi]

/-- The full effect of one outer step of insertion_sort is a permutation of
the previous state. -/
theorem insStep_perm (l : List α) (index : Nat) (hidx : index < l.length) :
    (insShift l index (idx l index)).1.set
      (insShift l index (idx l index)).2.1 (idx l index) ~ l := by
  have h := insShift_set_perm l index (idx l index) hidx
  rwa [set_idx_self l index hidx] at h

/-- One outer step of insertion_sort leaves positions after the processed
index unchanged. -/
theorem insStep_frame (l : List α) (index : Nat) :
    ∀ k, index < k →
      idx ((insShift l index (idx l index)).1.set
        (insShift l index (idx l index)).2.1 (idx l index)) k = idx l k := by
  intro k hk
  have hple := insShift_pos_le l index (idx l index)
  rw [idx_set_ne _ _ _ _ (by omega),
    insShift_frame l index (idx l index) k (Or.inr hk)]

/-- After one outer step of insertion_sort, the prefix of length index + 1
is monotone. -/
theorem insStep_mono (l : List α) (index : Nat) (hidx : index < l.length)
    (Inv : ∀ p q, p < q → q < index → idx l p ≤ idx l q) :
    ∀ p q, p < q → q < index + 1 →
      idx ((insShift l index (idx l index)).1.set
        (insShift l index (idx l index)).2.1 (idx l index)) p ≤
      idx ((insShift l index (idx l index)).1.set
        (insShift l index (idx l index)).2.1 (idx l index)) q := by
  intro p q hpq hq
  have hple := insShift_pos_le l index (idx l index)
  have hlen : (insShift l index (idx l index)).1.length = l.length :=
    insShift_length l index (idx l index)
  have hlow : ∀ k, k < (insShift l index (idx l index)).2.1 →
      idx ((insShift l index (idx l index)).1.set
        (insShift l index (idx l index)).2.1 (idx l index)) k = idx l k := by
    intro k hk
    rw [idx_set_ne _ _ _ _ (by omega),
      insShift_frame l index (idx l index) k (Or.inl hk)]
  have hmid : idx ((insShift l index (idx l index)).1.set
      (insShift l index (idx l index)).2.1 (idx l index))
      (insShift l index (idx l index)).2.1 = idx l index :=
    idx_set_self _ _ _ (by rw [hlen]; omega)
  have hhigh : ∀ k, (insShift l index (idx l index)).2.1 < k → k ≤ index →
      idx ((insShift l index (idx l index)).1.set
        (insShift l index (idx l index)).2.1 (idx l index)) k =
        idx l (k - 1) := by
    intro k hk1 hk2
    rw [idx_set_ne _ _ _ _ (by omega),
      insShift_shifted l index (idx l index) hidx k hk1 hk2]
  have hstop := insShift_stop l index (idx l index)
  have hgt := insShift_greater l index (idx l index)
  rcases Nat.lt_trichotomy q (insShift l index (idx l index)).2.1
    with hq' | hq' | hq'
  · rw [hlow p (by omega), hlow q hq']
    exact Inv p q hpq (by omega)
  · subst hq'
    rw [hmid, hlow p hpq]
    rcases hstop with h0 | hle
    · omega
    · rcases Nat.lt_or_ge p ((insShift l index (idx l index)).2.1 - 1)
        with hp2 | hp2
      · exact le_trans (Inv p _ hp2 (by omega)) hle
      · have hp3 : p = (insShift l index (idx l index)).2.1 - 1 := by omega
        rw [hp3]
        exact hle
  · rw [hhigh q hq' (by omega)]
    rcases Nat.lt_trichotomy p (insShift l index (idx l index)).2.1
      with hp' | hp' | hp'
    · rw [hlow p hp']
      exact Inv p (q - 1) (by omega) (by omega)
    · subst hp'
      rw [hmid]
      exact le_of_lt (hgt (q - 1) (by omega) (by omega))
    · rw [hhigh p hp' (by omega)]
      exact Inv (p - 1) (q - 1) (by omega) (by omega)

/-- Main invariant of insertion_sort: the processed prefix stays sorted and
each step permutes the list. -/
theorem insGo_inv : ∀ (l : List α) (index n : Nat), l.length = n →
    (∀ p q, p < q → q < index → idx l p ≤ idx l q) →
    (insGo l index n).1.Sorted (· ≤ ·) ∧ (insGo l index n).1 ~ l := by
  intro l index n
  induction l, index, n using insGo.induct with
  | case1 l index n hi s ih =>
    intro hlen Inv
    simp only [s] at ih
    have hidx : index < l.length := by omega
    rw [insGo_step l index n hi]
    have hlen1 : ((insShift l index (idx l index)).1.set
        (insShift l index (idx l index)).2.1 (idx l index)).length = n := by
      rw [List.length_set, insShift_length]
      exact hlen
    obtain ⟨hs, hp⟩ := ih hlen1 (insStep_mono l index hidx Inv)
    exact ⟨hs, hp.trans (insStep_perm l index hidx)⟩
  | case2 l index n hi =>
    intro hlen Inv
    rw [insGo_done l index n hi]
    refine ⟨sorted_of_idx_mono l ?_, List.Perm.refl l⟩
    intro p q hpq hq
    exact Inv p q hpq (by omega)

/-- insertion_sort produces a sorted permutation of its input. -/
theorem insertion_sort_sorted_perm (l : List α) :
    (insertion_sort l).1.Sorted (· ≤ ·) ∧ (insertion_sort l).1 ~ l := by
  refine insGo_inv l 1 l.length rfl ?_
  intro p q hpq hq
  omega

/-- On a sorted input the shifting loop never runs, the hole write restores
the same value, and each outer step issues exactly one notification. -/
theorem insGo_of_sorted : ∀ (l : List α) (index n : Nat), l.length = n →
    0 < index → (∀ p q, p < q → q < n → idx l p ≤ idx l q) →
    insGo l index n = (l, n - index) := by
  intro l index n
  induction l, index, n using insGo.induct with
  | case1 l index n hi s ih =>
    intro hlen hpos Inv
    simp only [s] at ih
    have hsh : insShift l index (idx l index) = (l, index, 0) := by
      refine insShift_done l index (idx l index) ?_
      rintro ⟨h1, h2⟩
      exact absurd (Inv (index - 1) index (by omega) (by omega))
        (not_le_of_lt h2)
    rw [insGo_step l index n hi, hsh]
    rw [hsh] at ih
    dsimp only at ih ⊢
    rw [set_idx_self l index (by omega)] at ih ⊢
    rw [ih hlen (by omega) Inv]
    dsimp only
    have harith : 0 + 1 + (n - (index + 1)) = n - index := by omega
    rw [harith]
  | case2 l index n hi =>
    intro hlen hpos Inv
    rw [insGo_done l index n hi]
    have h0 : n - index = 0 := by omega
    rw [h0]

/-- On an already-sorted input, insertion_sort leaves the list unchanged and
issues exactly length - 1 notifications, one per processed element, each
after an unconditional hole write of an unchanged value. -/
theorem insertion_sort_of_sorted (l : List α) (h : l.Sorted (· ≤ ·)) :
    insertion_sort l = (l, l.length - 1) :=
  insGo_of_sorted l 1 l.length rfl Nat.one_pos (idx_mono_of_sorted l h)

/-!
## Selection sort (main.cpp, selection_sort)

```
auto first_unsorted = first;
while (first_unsorted < last) {
  auto smallest = first_unsorted;
  for (auto current = first_unsorted + 1; current != last; ++current)
    if (*current < *smallest) { smallest = current; draw_array(...); }
  if (smallest != first_unsorted) {
    std::swap(*smallest, *first_unsorted); draw_array(...);
  }
  ++first_unsorted;
}
```
The loop guard `current != last` is reached only with current ≤ last, so it
is embedded as c < n.  selection_sort returns the final state, the total
notification count and the number of placing exchanges.
-/

/-- The inner scan of selection_sort: walk c from smallest + 1 to n,
recording each strictly smaller candidate and notifying on each update.
Returns the index of the chosen minimum and the notification count. -/
def selScan (l : List α) (smallest c n : Nat) : Nat × Nat :=
  if c < n then
    if idx l c < idx l smallest then
      ((selScan l c (c + 1) n).1, (selScan l c (c + 1) n).2 + 1)
    else selScan l smallest (c + 1) n
  else (smallest, 0)
termination_by n - c

/-- The outer loop of selection_sort.  Returns the final state, the total
notification count and the number of placing exchanges. -/
def selGo (l : List α) (fu n : Nat) : List α × Nat × Nat :=
  if fu < n then
    if (selScan l fu (fu + 1) n).1 ≠ fu then
      ((selGo (lswap l (selScan l fu (fu + 1) n).1 fu) (fu + 1) n).1,
       (selScan l fu (fu + 1) n).2 + 1 +
         (selGo (lswap l (selScan l fu (fu + 1) n).1 fu) (fu + 1) n).2.1,
       (selGo (lswap l (selScan l fu (fu + 1) n).1 fu) (fu + 1) n).2.2 + 1)
    else
      ((selGo l (fu + 1) n).1,
       (selScan l fu (fu + 1) n).2 + (selGo l (fu + 1) n).2.1,
       (selGo l (fu + 1) n).2.2)
  else (l, 0, 0)
termination_by n - fu

/-- selection_sort over the whole range [first, last); returns the final
state, the notification count and the placing-exchange count. -/
def selection_sort (l : List α) : List α × Nat × Nat := selGo l 0 l.length

theorem selScan_step_lt (l : List α) (s c n : Nat) (hc : c < n)
    (hlt : idx l c < idx l s) :
    selScan l s c n =
      ((selScan l c (c + 1) n).1, (selScan l c (c + 1) n).2 + 1) := by
  rw [selScan]
  simp [hc, hlt]

theorem selScan_step_ge (l : List α) (s c n : Nat) (hc : c < n)
    (hlt : ¬ idx l c < idx l s) :
    selScan l s c n = selScan l s (c + 1) n := by
  rw [selScan]
  simp [hc, hlt]

theorem selScan_done (l : List α) (s c n : Nat) (hc : ¬ c < n) :
    selScan l s c n = (s, 0) := by
  rw [selScan]
  simp [hc]

theorem selScan_mem (l : List α) (s c n : Nat) :
    (selScan l s c n).1 = s ∨
      (c ≤ (selScan l s c n).1 ∧ (selScan l s c n).1 < n) := by
  induction s, c, n using selScan.induct l with
  | case1 s c n hc hlt ih =>
    rw [selScan_step_lt l s c n hc hlt]
    rcases ih with h | h
    · exact Or.inr ⟨by omega, by omega⟩
    · exact Or.inr ⟨by omega, h.2⟩
  | case2 s c n hc hlt ih =>
    rw [selScan_step_ge l s c n hc hlt]
    rcases ih with h | h
    · exact Or.inl h
    · exact Or.inr ⟨by omega, h.2⟩
  | case3 s c n hc =>
    rw [selScan_done l s c n hc]
    exact Or.inl rfl

/-- The scan returns an index of a minimum among the start index and the
scanned range. -/
theorem selScan_min (l : List α) (s c n : Nat) :
    idx l (selScan l s c n).1 ≤ idx l s ∧
      ∀ k, c ≤ k → k < n → idx l (selScan l s c n).1 ≤ idx l k := by
  induction s, c, n using selScan.induct l with
  | case1 s c n hc hlt ih =>
    rw [selScan_step_lt l s c n hc hlt]
    refine ⟨le_of_lt (lt_of_le_of_lt ih.1 hlt), ?_⟩
    intro k hk1 hk2
    rcases Nat.eq_or_lt_of_le hk1 with rfl | hk1'
    · exact ih.1
    · exact ih.2 k hk1' hk2
  | case2 s c n hc hlt ih =>
    rw [selScan_step_ge l s c n hc hlt]
    refine ⟨ih.1, ?_⟩
    intro k hk1 hk2
    rcases Nat.eq_or_lt_of_le hk1 with rfl | hk1'
    · exact le_trans ih.1 (le_of_not_lt hlt)
    · exact ih.2 k hk1' hk2
  | case3 s c n hc =>
    rw [selScan_done l s c n hc]
    exact ⟨le_refl _, fun k hk1 hk2 => by omega⟩

/-- The scan returns the FIRST index attaining the minimum: every earlier
candidate position holds a strictly larger value. -/
theorem selScan_first (l : List α) (s c n : Nat) :
    s < c → ∀ k, (k = s ∨ (c ≤ k ∧ k < n)) → k < (selScan l s c n).1 →
      idx l (selScan l s c n).1 < idx l k := by
  induction s, c, n using selScan.induct l with
  | case1 s c n hc hlt ih =>
    intro hsc k hk hklt
    rw [selScan_step_lt l s c n hc hlt] at hklt ⊢
    have hmin := selScan_min l c (c + 1) n
    rcases hk with rfl | ⟨hk1, hk2⟩
    · exact lt_of_le_of_lt hmin.1 hlt
    · rcases Nat.eq_or_lt_of_le hk1 with heq | hk1'
      · exact ih (by omega) k (Or.inl (by omega)) hklt
      · exact ih (by omega) k (Or.inr ⟨hk1', hk2⟩) hklt
  | case2 s c n hc hlt ih =>
    intro hsc k hk hklt
    rw [selScan_step_ge l s c n hc hlt] at hklt ⊢
    rcases hk with rfl | ⟨hk1, hk2⟩
    · exact ih (by omega) k (Or.inl rfl) hklt
    · rcases Nat.eq_or_lt_of_le hk1 with heq | hk1'
      · have hs := ih (by omega) s (Or.inl rfl) (by omega)
        rw [← heq]
        exact lt_of_lt_of_le hs (le_of_not_lt hlt)
      · exact ih (by omega) k (Or.inr ⟨hk1', hk2⟩) hklt
  | case3 s c n hc =>
    intro hsc k hk hklt
    rw [selScan_done l s c n hc] at hklt
    rcases hk with rfl | ⟨hk1, hk2⟩
    · omega
    · omega

/-- If the start value is already minimal over the scanned range, the scan
keeps the start index and issues no notification. -/
theorem selScan_noswap (l : List α) (s c n : Nat)
    (h : ∀ k, c ≤ k → k < n → idx l s ≤ idx l k) :
    selScan l s c n = (s, 0) := by
  induction s, c, n using selScan.induct l with
  | case1 s c n hc hlt ih =>
    exact absurd (h c (le_refl c) hc) (not_le_of_lt hlt)
  | case2 s c n hc hlt ih =>
    rw [selScan_step_ge l s c n hc hlt]
    exact ih (fun k hk1 hk2 => h k (by omega) hk2)
  | case3 s c n hc =>
    exact selScan_done l s c n hc

theorem selGo_step_swap (l : List α) (fu n : Nat) (hfu : fu < n)
    (hne : (selScan l fu (fu + 1) n).1 ≠ fu) :
    selGo l fu n =
      ((selGo (lswap l (selScan l fu (fu + 1) n).1 fu) (fu + 1) n).1,
       (selScan l fu (fu + 1) n).2 + 1 +
         (selGo (lswap l (selScan l fu (fu + 1) n).1 fu) (fu + 1) n).2.1,
       (selGo (lswap l (selScan l fu (fu + 1) n).1 fu) (fu + 1) n).2.2 + 1)
    := by
  rw [selGo]
  simp [hfu, hne]

theorem selGo_step_stay (l : List α) (fu n : Nat) (hfu : fu < n)
    (heq : (selScan l fu (fu + 1) n).1 = fu) :
    selGo l fu n =
      ((selGo l (fu + 1) n).1,
       (selScan l fu (fu + 1) n).2 + (selGo l (fu + 1) n).2.1,
       (selGo l (fu + 1) n).2.2) := by
  rw [selGo]
  simp [hfu, heq]

theorem selGo_done (l : List α) (fu n : Nat) (hfu : ¬ fu < n) :
    selGo l fu n = (l, 0, 0) := by
  rw [selGo]
  simp [hfu]

/-- Main invariant of selection_sort: the sorted prefix grows by one each
outer step and never exceeds the unsorted suffix. -/
theorem selGo_inv : ∀ (l : List α) (fu n : Nat), l.length = n →
    (∀ p q, p < q → q < fu → idx l p ≤ idx l q) →
    (∀ p q, p < fu → fu ≤ q → q < n → idx l p ≤ idx l q) →
    (selGo l fu n).1.Sorted (· ≤ ·) ∧ (selGo l fu n).1 ~ l := by
  intro l fu n
  induction l, fu, n using selGo.induct with
  | case1 l fu n hfu hne ih =>
    intro hlen Inv1 Inv2
    rw [selGo_step_swap l fu n hfu hne]
    have hmem := selScan_mem l fu (fu + 1) n
    have hmin := selScan_min l fu (fu + 1) n
    have hs : fu + 1 ≤ (selScan l fu (fu + 1) n).1 ∧
        (selScan l fu (fu + 1) n).1 < n := by
      rcases hmem with h | h
      · exact absurd h hne
      · exact h
    have hlen1 : (lswap l (selScan l fu (fu + 1) n).1 fu).length = n := by
      rw [length_lswap]; exact hlen
    have hfu_len : fu < l.length := by omega
    have hs_len : (selScan l fu (fu + 1) n).1 < l.length := by omega
    have hlow : ∀ k, k < fu →
        idx (lswap l (selScan l fu (fu + 1) n).1 fu) k = idx l k := by
      intro k hk
      exact idx_lswap_other l _ fu k (by omega) (by omega)
    have hat : idx (lswap l (selScan l fu (fu + 1) n).1 fu) fu =
        idx l (selScan l fu (fu + 1) n).1 :=
      idx_lswap_snd l _ fu hfu_len
    have hhi : ∀ k, fu < k → k ≠ (selScan l fu (fu + 1) n).1 →
        idx (lswap l (selScan l fu (fu + 1) n).1 fu) k = idx l k := by
      intro k hk1 hk2
      exact idx_lswap_other l _ fu k hk2 (by omega)
    have hats : idx (lswap l (selScan l fu (fu + 1) n).1 fu)
        (selScan l fu (fu + 1) n).1 = idx l fu :=
      idx_lswap_fst l _ fu hs_len
    have Inv1' : ∀ p q, p < q → q < fu + 1 →
        idx (lswap l (selScan l fu (fu + 1) n).1 fu) p ≤
          idx (lswap l (selScan l fu (fu + 1) n).1 fu) q := by
      intro p q hpq hq
      rcases Nat.lt_or_ge q fu with hq' | hq'
      · rw [hlow p (by omega), hlow q hq']
        exact Inv1 p q hpq hq'
      · have hq2 : q = fu := by omega
        subst hq2
        rw [hlow p (by omega), hat]
        exact Inv2 p _ (by omega) (by omega) (by omega)
    have Inv2' : ∀ p q, p < fu + 1 → fu + 1 ≤ q → q < n →
        idx (lswap l (selScan l fu (fu + 1) n).1 fu) p ≤
          idx (lswap l (selScan l fu (fu + 1) n).1 fu) q := by
      intro p q hp hq hqn
      rcases Nat.lt_or_ge p fu with hp' | hp'
      · rw [hlow p hp']
        rcases eq_or_ne q (selScan l fu (fu + 1) n).1 with hq' | hq'
        · rw [hq', hats]
          exact Inv2 p fu hp' (le_refl fu) (by omega)
        · rw [hhi q (by omega) hq']
          exact Inv2 p q hp' (by omega) hqn
      · have hp2 : p = fu := by omega
        subst hp2
        rw [hat]
        rcases eq_or_ne q (selScan l p (p + 1) n).1 with hq' | hq'
        · rw [hq', hats]
          exact hmin.1
        · rw [hhi q (by omega) hq']
          exact hmin.2 q hq hqn
    obtain ⟨hsrt, hperm⟩ := ih hlen1 Inv1' Inv2'
    exact ⟨hsrt, hperm.trans (lswap_perm l _ fu hs_len hfu_len)⟩
  | case2 l fu n hfu hne ih =>
    intro hlen Inv1 Inv2
    have heq : (selScan l fu (fu + 1) n).1 = fu := by
      by_contra hcon
      exact hne hcon
    rw [selGo_step_stay l fu n hfu heq]
    have hmin := selScan_min l fu (fu + 1) n
    rw [heq] at hmin
    have Inv1' : ∀ p q, p < q → q < fu + 1 → idx l p ≤ idx l q := by
      intro p q hpq hq
      rcases Nat.lt_or_ge q fu with hq' | hq'
      · exact Inv1 p q hpq hq'
      · have hq2 : q = fu := by omega
        subst hq2
        exact Inv2 p q hpq (le_refl q) (by omega)
    have Inv2' : ∀ p q, p < fu + 1 → fu + 1 ≤ q → q < n →
        idx l p ≤ idx l q := by
      intro p q hp hq hqn
      rcases Nat.lt_or_ge p fu with hp' | hp'
      · exact Inv2 p q hp' (by omega) hqn
      · have hp2 : p = fu := by omega
        subst hp2
        exact hmin.2 q hq hqn
    exact ih hlen Inv1' Inv2'
  | case3 l fu n hfu =>
    intro hlen Inv1 Inv2
    rw [selGo_done l fu n hfu]
    refine ⟨sorted_of_idx_mono l ?_, List.Perm.refl l⟩
    intro p q hpq hq
    exact Inv1 p q hpq (by omega)

/-- selection_sort produces a sorted permutation of its input. -/
theorem selection_sort_sorted_perm (l : List α) :
    (selection_sort l).1.Sorted (· ≤ ·) ∧ (selection_sort l).1 ~ l := by
  refine selGo_inv l 0 l.length rfl ?_ ?_
  · intro p q hpq hq
    omega
  · intro p q hp hq hqn
    omega

/-- On a suffix that is already monotone, each scan keeps the initial
candidate, so selection_sort performs no exchange and issues no
notification of either kind. -/
theorem selGo_of_sorted : ∀ (l : List α) (fu n : Nat), l.length = n →
    (∀ p q, fu ≤ p → p < q → q < n → idx l p ≤ idx l q) →
    selGo l fu n = (l, 0, 0) := by
  intro l fu n
  induction l, fu, n using selGo.induct with
  | case1 l fu n hfu hne ih =>
    intro hlen Inv
    have hsc : selScan l fu (fu + 1) n = (fu, 0) := by
      refine selScan_noswap l fu (fu + 1) n ?_
      intro k hk1 hk2
      exact Inv fu k (le_refl fu) (by omega) hk2
    rw [hsc] at hne
    exact absurd rfl hne
  | case2 l fu n hfu hne ih =>
    intro hlen Inv
    have heq : (selScan l fu (fu + 1) n).1 = fu := by
      by_contra hcon
      exact hne hcon
    have hsc : selScan l fu (fu + 1) n = (fu, 0) := by
      refine selScan_noswap l fu (fu + 1) n ?_
      intro k hk1 hk2
      exact Inv fu k (le_refl fu) (by omega) hk2
    rw [selGo_step_stay l fu n hfu heq, hsc,
      ih hlen (fun p q hp hpq hqn => Inv p q (by omega) hpq hqn)]
    rfl
  | case3 l fu n hfu =>
    intro hlen Inv
    exact selGo_done l fu n hfu

/-- On an already-sorted input (hence also on all-equal inputs),
selection_sort leaves the list unchanged, makes no placing exchange and
issues zero observer notifications. -/
theorem selection_sort_of_sorted (l : List α) (h : l.Sorted (· ≤ ·)) :
    selection_sort l = (l, 0, 0) :=
  selGo_of_sorted l 0 l.length rfl
    (fun p q _ hpq hqn => idx_mono_of_sorted l h p q hpq hqn)

/-- Independent characterization of the inner-scan notification count: the
number of strict running-minimum improvements when walking a list left to
right starting from candidate value m. -/
def runMinCount : α → List α → Nat
  | _, [] => 0
  | m, x :: xs => if x < m then runMinCount x xs + 1 else runMinCount m xs

/-- The inner scan notifies exactly once per strict running-minimum
improvement over the remaining suffix. -/
theorem selScan_count_eq (l : List α) : ∀ (s c n : Nat), n = l.length →
    (selScan l s c n).2 = runMinCount (idx l s) (l.drop c) := by
  intro s c n
  induction s, c, n using selScan.induct l with
  | case1 s c n hc hlt ih =>
    intro hn
    rw [selScan_step_lt l s c n hc hlt]
    have hdrop : l.drop c = idx l c :: l.drop (c + 1) := by
      rw [idx_eq_getElem l c (by omega)]
      exact List.drop_eq_getElem_cons (by omega)
    rw [hdrop]
    simp only [runMinCount, if_pos hlt]
    rw [ih hn]
  | case2 s c n hc hlt ih =>
    intro hn
    rw [selScan_step_ge l s c n hc hlt]
    have hdrop : l.drop c = idx l c :: l.drop (c + 1) := by
      rw [idx_eq_getElem l c (by omega)]
      exact List.drop_eq_getElem_cons (by omega)
    rw [hdrop]
    simp only [runMinCount, if_neg hlt]
    rw [ih hn]
  | case3 s c n hc =>
    intro hn
    rw [selScan_done l s c n hc, List.drop_eq_nil_of_le (by omega)]
    rfl

/-- Every run of the outer loop performs at most one placing exchange per
remaining position. -/
theorem selGo_place_le : ∀ (l : List α) (fu n : Nat),
    (selGo l fu n).2.2 ≤ n - fu := by
  intro l fu n
  induction l, fu, n using selGo.induct with
  | case1 l fu n hfu hne ih =>
    rw [selGo_step_swap l fu n hfu hne]
    dsimp only
    have := ih
    omega
  | case2 l fu n hfu hne ih =>
    have heq : (selScan l fu (fu + 1) n).1 = fu := by
      by_contra hcon
      exact hne hcon
    rw [selGo_step_stay l fu n hfu heq]
    dsimp only
    have := ih
    omega
  | case3 l fu n hfu =>
    rw [selGo_done l fu n hfu]
    dsimp only
    omega

/-- When the minimum of the unsorted suffix is already at the current
position, the placing exchange and its notification are both skipped: the
step contributes exactly the candidate-update notifications. -/
theorem selGo_step_min_in_place (l : List α) (fu : Nat)
    (hfu : fu < l.length)
    (h : ∀ k, fu ≤ k → k < l.length → idx l fu ≤ idx l k) :
    selGo l fu l.length =
      ((selGo l (fu + 1) l.length).1,
       runMinCount (idx l fu) (l.drop (fu + 1)) +
         (selGo l (fu + 1) l.length).2.1,
       (selGo l (fu + 1) l.length).2.2) := by
  have hsc : selScan l fu (fu + 1) l.length = (fu, 0) := by
    refine selScan_noswap l fu (fu + 1) l.length ?_
    intro k hk1 hk2
    exact h k (by omega) hk2
  have hcnt := selScan_count_eq l fu (fu + 1) l.length rfl
  rw [selGo_step_stay l fu l.length hfu (by rw [hsc]), ← hcnt]

/-- When some element of the unsorted suffix is strictly smaller than the
element at the current position, the step performs exactly one placing
exchange of the first minimal position into the current position, and one
notification after it, in addition to the candidate-update notifications. -/
theorem selGo_step_min_not_in_place (l : List α) (fu : Nat)
    (hfu : fu < l.length)
    (h : ∃ k, fu ≤ k ∧ k < l.length ∧ idx l k < idx l fu) :
    selGo l fu l.length =
      ((selGo (lswap l (selScan l fu (fu + 1) l.length).1 fu)
          (fu + 1) l.length).1,
       runMinCount (idx l fu) (l.drop (fu + 1)) + 1 +
         (selGo (lswap l (selScan l fu (fu + 1) l.length).1 fu)
            (fu + 1) l.length).2.1,
       (selGo (lswap l (selScan l fu (fu + 1) l.length).1 fu)
          (fu + 1) l.length).2.2 + 1) := by
  obtain ⟨k, hk1, hk2, hk3⟩ := h
  have hmin := selScan_min l fu (fu + 1) l.length
  have hne : (selScan l fu (fu + 1) l.length).1 ≠ fu := by
    intro heq
    have hkfu : k ≠ fu := by
      intro hkk
      rw [hkk] at hk3
      exact lt_irrefl _ hk3
    have := hmin.2 k (by omega) hk2
    rw [heq] at this
    exact absurd (lt_of_le_of_lt this hk3) (lt_irrefl _)
  have hcnt := selScan_count_eq l fu (fu + 1) l.length rfl
  rw [selGo_step_swap l fu l.length hfu hne, ← hcnt]

/-!
## Cocktail shaker sort (main.cpp, shaker_sort)

```
auto left_border = first;  auto right_border = last;
while (left_border < right_border) {
  for (auto current = left_border; current < right_border - 1; ++current)
    if (*current > *(current + 1)) { std::swap(...); draw_array(...); }
  --right_border;
  for (auto current = right_border - 1; current > left_border; --current)
    if (*current < *(current - 1)) { std::swap(...); draw_array(...); }
  ++left_border;
}
```
The forward guard current < right_border - 1 is embedded as c + 1 < right
(equivalent for right ≥ 1, and every loop entry has left < right).  After
--right_border the backward scan starts at right - 2.
-/

/-- Forward pass of shaker_sort from c while c < right - 1. -/
def shakerFwd (l : List α) (c right : Nat) : List α × Nat :=
  if c + 1 < right then
    if idx l (c + 1) < idx l c then
      ((shakerFwd (lswap l c (c + 1)) (c + 1) right).1,
       (shakerFwd (lswap l c (c + 1)) (c + 1) right).2 + 1)
    else shakerFwd l (c + 1) right
  else (l, 0)
termination_by right - c

/-- Backward pass of shaker_sort from c down while c > left. -/
def shakerBwd (l : List α) (c left : Nat) : List α × Nat :=
  if left < c then
    if idx l c < idx l (c - 1) then
      ((shakerBwd (lswap l c (c - 1)) (c - 1) left).1,
       (shakerBwd (lswap l c (c - 1)) (c - 1) left).2 + 1)
    else shakerBwd l (c - 1) left
  else (l, 0)
termination_by c

/-- The outer loop of shaker_sort on the window [left, right). -/
def shakerGo (l : List α) (left right : Nat) : List α × Nat :=
  if left < right then
    ((shakerGo (shakerBwd (shakerFwd l left right).1 (right - 1 - 1) left).1
        (left + 1) (right - 1)).1,
     (shakerFwd l left right).2 +
       (shakerBwd (shakerFwd l left right).1 (right - 1 - 1) left).2 +
       (shakerGo (shakerBwd (shakerFwd l left right).1 (right - 1 - 1) left).1
          (left + 1) (right - 1)).2)
  else (l, 0)
termination_by right - left
decreasing_by omega

/-- shaker_sort over the whole range [first, last); returns the final state
and the total number of observer notifications. -/
def shaker_sort (l : List α) : List α × Nat := shakerGo l 0 l.length

theorem shakerFwd_step_swap (l : List α) (c right : Nat) (hc : c + 1 < right)
    (hlt : idx l (c + 1) < idx l c) :
    shakerFwd l c right =
      ((shakerFwd (lswap l c (c + 1)) (c + 1) right).1,
       (shakerFwd (lswap l c (c + 1)) (c + 1) right).2 + 1) := by
  rw [shakerFwd]
  simp [hc, hlt]

theorem shakerFwd_step_skip (l : List α) (c right : Nat) (hc : c + 1 < right)
    (hlt : ¬ idx l (c + 1) < idx l c) :
    shakerFwd l c right = shakerFwd l (c + 1) right := by
  rw [shakerFwd]
  simp [hc, hlt]

theorem shakerFwd_done (l : List α) (c right : Nat) (hc : ¬ c + 1 < right) :
    shakerFwd l c right = (l, 0) := by
  rw [shakerFwd]
  simp [hc]

theorem shakerFwd_length (l : List α) (c right : Nat) :
    (shakerFwd l c right).1.length = l.length := by
  induction l, c, right using shakerFwd.induct with
  | case1 l c right hc hlt ih =>
    rw [shakerFwd_step_swap l c right hc hlt]
    simpa using ih
  | case2 l c right hc hlt ih =>
    rw [shakerFwd_step_skip l c right hc hlt]
    exact ih
  | case3 l c right hc =>
    rw [shakerFwd_done l c right hc]

theorem shakerFwd_perm (l : List α) (c right : Nat) (hr : right ≤ l.length) :
    (shakerFwd l c right).1 ~ l := by
  induction l, c, right using shakerFwd.induct with
  | case1 l c right hc hlt ih =>
    rw [shakerFwd_step_swap l c right hc hlt]
    exact (ih (by simpa using hr)).trans
      (lswap_perm l c (c + 1) (by omega) (by omega))
  | case2 l c right hc hlt ih =>
    rw [shakerFwd_step_skip l c right hc hlt]
    exact ih hr
  | case3 l c right hc =>
    rw [shakerFwd_done l c right hc]

theorem shakerFwd_frame (l : List α) (c right : Nat) :
    ∀ k, k < c ∨ right ≤ k → idx (shakerFwd l c right).1 k = idx l k := by
  induction l, c, right using shakerFwd.induct with
  | case1 l c right hc hlt ih =>
    intro k hk
    rw [shakerFwd_step_swap l c right hc hlt]
    rw [ih k (by omega), idx_lswap_other l c (c + 1) k (by omega) (by omega)]
  | case2 l c right hc hlt ih =>
    intro k hk
    rw [shakerFwd_step_skip l c right hc hlt]
    exact ih k (by omega)
  | case3 l c right hc =>
    intro k _
    rw [shakerFwd_done l c right hc]

theorem shakerFwd_max (l : List α) (c right a : Nat) (hc : c < right)
    (hr : right ≤ l.length) (H : ∀ k, a ≤ k → k < c → idx l k ≤ idx l c) :
    ∀ k, a ≤ k → k < right - 1 →
      idx (shakerFwd l c right).1 k ≤
        idx (shakerFwd l c right).1 (right - 1) := by
  induction l, c, right using shakerFwd.induct with
  | case1 l c right hc1 hlt ih =>
    rw [shakerFwd_step_swap l c right hc1 hlt]
    refine ih (by omega) (by simpa using hr) ?_
    intro k hak hk
    rcases Nat.lt_or_ge k c with hkc | hkc
    · rw [idx_lswap_other l c (c + 1) k (by omega) (by omega),
        idx_lswap_snd l c (c + 1) (by omega)]
      exact H k hak hkc
    · have hkc' : k = c := by omega
      subst hkc'
      rw [idx_lswap_fst l k (k + 1) (by omega),
        idx_lswap_snd l k (k + 1) (by omega)]
      exact le_of_lt hlt
  | case2 l c right hc1 hlt ih =>
    rw [shakerFwd_step_skip l c right hc1 hlt]
    refine ih (by omega) hr ?_
    intro k hak hk
    rcases Nat.lt_or_ge k c with hkc | hkc
    · exact (H k hak hkc).trans (le_of_not_lt hlt)
    · have hkc' : k = c := by omega
      subst hkc'
      exact le_of_not_lt hlt
  | case3 l c right hc1 =>
    rw [shakerFwd_done l c right hc1]
    intro k hak hk
    have hcr : c = right - 1 := by omega
    exact hcr ▸ H k hak (by omega)

theorem shakerFwd_valuesFrom (l : List α) (c right a : Nat) (hac : a ≤ c)
    (hr : right ≤ l.length) :
    ∀ p, a ≤ p → p < right →
      ∃ k, a ≤ k ∧ k < right ∧ idx (shakerFwd l c right).1 p = idx l k := by
  induction l, c, right using shakerFwd.induct with
  | case1 l c right hc hlt ih =>
    intro p hap hp
    rw [shakerFwd_step_swap l c right hc hlt]
    obtain ⟨k, hak, hk, hval⟩ := ih (by omega) (by simpa using hr) p hap hp
    rcases eq_or_ne k c with rfl | hkc
    · exact ⟨k + 1, by omega, by omega,
        by rw [hval, idx_lswap_fst l k (k + 1) (by omega)]⟩
    rcases eq_or_ne k (c + 1) with rfl | hkc1
    · exact ⟨c, by omega, by omega,
        by rw [hval, idx_lswap_snd l c (c + 1) (by omega)]⟩
    · exact ⟨k, hak, hk, by rw [hval, idx_lswap_other l c (c + 1) k hkc hkc1]⟩
  | case2 l c right hc hlt ih =>
    intro p hap hp
    rw [shakerFwd_step_skip l c right hc hlt]
    exact ih (by omega) hr p hap hp
  | case3 l c right hc =>
    intro p hap hp
    rw [shakerFwd_done l c right hc]
    exact ⟨p, hap, hp, rfl⟩

theorem shakerBwd_step_swap (l : List α) (c left : Nat) (hc : left < c)
    (hlt : idx l c < idx l (c - 1)) :
    shakerBwd l c left =
      ((shakerBwd (lswap l c (c - 1)) (c - 1) left).1,
       (shakerBwd (lswap l c (c - 1)) (c - 1) left).2 + 1) := by
  rw [shakerBwd]
  simp [hc, hlt]

theorem shakerBwd_step_skip (l : List α) (c left : Nat) (hc : left < c)
    (hlt : ¬ idx l c < idx l (c - 1)) :
    shakerBwd l c left = shakerBwd l (c - 1) left := by
  rw [shakerBwd]
  simp [hc, hlt]

theorem shakerBwd_done (l : List α) (c left : Nat) (hc : ¬ left < c) :
    shakerBwd l c left = (l, 0) := by
  rw [shakerBwd]
  simp [hc]

theorem shakerBwd_length (l : List α) (c left : Nat) :
    (shakerBwd l c left).1.length = l.length := by
  induction l, c, left using shakerBwd.induct with
  | case1 l c left hc hlt ih =>
    rw [shakerBwd_step_swap l c left hc hlt]
    simpa using ih
  | case2 l c left hc hlt ih =>
    rw [shakerBwd_step_skip l c left hc hlt]
    exact ih
  | case3 l c left hc =>
    rw [shakerBwd_done l c left hc]

theorem shakerBwd_perm (l : List α) (c left : Nat) (hc : c < l.length) :
    (shakerBwd l c left).1 ~ l := by
  induction l, c, left using shakerBwd.induct with
  | case1 l c left hc1 hlt ih =>
    rw [shakerBwd_step_swap l c left hc1 hlt]
    exact (ih (by simp; omega)).trans
      (lswap_perm l c (c - 1) (by omega) (by omega))
  | case2 l c left hc1 hlt ih =>
    rw [shakerBwd_step_skip l c left hc1 hlt]
    exact ih (by omega)
  | case3 l c left hc1 =>
    rw [shakerBwd_done l c left hc1]

theorem shakerBwd_frame (l : List α) (c left : Nat) :
    ∀ k, k < left ∨ c < k → idx (shakerBwd l c left).1 k = idx l k := by
  induction l, c, left using shakerBwd.induct with
  | case1 l c left hc hlt ih =>
    intro k hk
    rw [shakerBwd_step_swap l c left hc hlt]
    rw [ih k (by omega), idx_lswap_other l c (c - 1) k (by omega) (by omega)]
  | case2 l c left hc hlt ih =>
    intro k hk
    rw [shakerBwd_step_skip l c left hc hlt]
    exact ih k (by omega)
  | case3 l c left hc =>
    intro k _
    rw [shakerBwd_done l c left hc]

theorem shakerBwd_min (l : List α) (c left b : Nat) (hlc : left ≤ c)
    (hcl : c < l.length) (hcb : c ≤ b)
    (H : ∀ k, c < k → k ≤ b → idx l c ≤ idx l k) :
    ∀ k, left < k → k ≤ b →
      idx (shakerBwd l c left).1 left ≤ idx (shakerBwd l c left).1 k := by
  induction l, c, left using shakerBwd.induct with
  | case1 l c left hc hlt ih =>
    rw [shakerBwd_step_swap l c left hc hlt]
    refine ih (by omega) (by simp; omega) (by omega) ?_
    intro k hk1 hk2
    rcases Nat.eq_or_lt_of_le hk1 with heq | hk1'
    · have hkc : k = c := by omega
      subst hkc
      rw [idx_lswap_snd l k (k - 1) (by omega), idx_lswap_fst l k (k - 1) hcl]
      exact le_of_lt hlt
    · rw [idx_lswap_snd l c (c - 1) (by omega),
        idx_lswap_other l c (c - 1) k (by omega) (by omega)]
      exact H k (by omega) hk2
  | case2 l c left hc hlt ih =>
    rw [shakerBwd_step_skip l c left hc hlt]
    refine ih (by omega) (by omega) (by omega) ?_
    intro k hk1 hk2
    rcases Nat.eq_or_lt_of_le hk1 with heq | hk1'
    · have hkc : k = c := by omega
      subst hkc
      exact le_of_not_lt hlt
    · exact le_trans (le_of_not_lt hlt) (H k (by omega) hk2)
  | case3 l c left hc =>
    rw [shakerBwd_done l c left hc]
    intro k hk1 hk2
    have hcleft : c = left := by omega
    subst hcleft
    exact H k hk1 hk2

theorem shakerBwd_valuesFrom (l : List α) (c left : Nat) (hcl : c < l.length) :
    ∀ b, c ≤ b → ∀ p, left ≤ p → p ≤ b →
      ∃ k, left ≤ k ∧ k ≤ b ∧ idx (shakerBwd l c left).1 p = idx l k := by
  induction l, c, left using shakerBwd.induct with
  | case1 l c left hc hlt ih =>
    intro b hcb p hp1 hp2
    rw [shakerBwd_step_swap l c left hc hlt]
    obtain ⟨k, hk1, hk2, hval⟩ := ih (by simp; omega) b (by omega) p hp1 hp2
    rcases eq_or_ne k c with rfl | hkc
    · exact ⟨k - 1, by omega, by omega,
        by rw [hval, idx_lswap_fst l k (k - 1) hcl]⟩
    rcases eq_or_ne k (c - 1) with rfl | hkc1
    · exact ⟨c, by omega, hcb,
        by rw [hval, idx_lswap_snd l c (c - 1) (by omega)]⟩
    · exact ⟨k, hk1, hk2, by rw [hval, idx_lswap_other l c (c - 1) k hkc hkc1]⟩
  | case2 l c left hc hlt ih =>
    intro b hcb p hp1 hp2
    rw [shakerBwd_step_skip l c left hc hlt]
    exact ih (by omega) b (by omega) p hp1 hp2
  | case3 l c left hc =>
    intro b hcb p hp1 hp2
    rw [shakerBwd_done l c left hc]
    exact ⟨p, hp1, hp2, rfl⟩

theorem shakerGo_step (l : List α) (left right : Nat) (hlr : left < right) :
    shakerGo l left right =
      ((shakerGo (shakerBwd (shakerFwd l left right).1 (right - 1 - 1) left).1
          (left + 1) (right - 1)).1,
       (shakerFwd l left right).2 +
         (shakerBwd (shakerFwd l left right).1 (right - 1 - 1) left).2 +
         (shakerGo (shakerBwd (shakerFwd l left right).1 (right - 1 - 1) left).1
            (left + 1) (right - 1)).2) := by
  rw [shakerGo]
  simp [hlr]

theorem shakerGo_done (l : List α) (left right : Nat) (hlr : ¬ left < right) :
    shakerGo l left right = (l, 0) := by
  rw [shakerGo]
  simp [hlr]

/-- Main invariant of shaker_sort: the prefix before the left border and the
suffix from the right border are sorted and dominate/are dominated by the
window; each iteration shrinks the window by one on each side. -/
theorem shakerGo_inv : ∀ (l : List α) (left right : Nat), right ≤ l.length →
    (∀ p q, p < q → q < left → idx l p ≤ idx l q) →
    (∀ p q, p < left → left ≤ q → q < l.length → idx l p ≤ idx l q) →
    (∀ p q, right ≤ p → p < q → q < l.length → idx l p ≤ idx l q) →
    (∀ p q, p < right → right ≤ q → q < l.length → idx l p ≤ idx l q) →
    (shakerGo l left right).1.Sorted (· ≤ ·) ∧ (shakerGo l left right).1 ~ l
    := by
  intro l left right
  induction l, left, right using shakerGo.induct with
  | case1 l left right hlr ih =>
    intro hr J1 J2 J3 J4
    rw [shakerGo_step l left right hlr]
    have hlen1 : (shakerFwd l left right).1.length = l.length :=
      shakerFwd_length l left right
    have hlen2 : (shakerBwd (shakerFwd l left right).1 (right - 1 - 1)
        left).1.length = l.length := by
      rw [shakerBwd_length, hlen1]
    have fwdFrame := shakerFwd_frame l left right
    have fwdPerm := shakerFwd_perm l left right hr
    have bwdFrame := shakerBwd_frame (shakerFwd l left right).1
      (right - 1 - 1) left
    have bwdPerm : (shakerBwd (shakerFwd l left right).1 (right - 1 - 1)
        left).1 ~ (shakerFwd l left right).1 := by
      rcases Nat.lt_or_ge (right - 1 - 1) ((shakerFwd l left right).1.length)
        with hcl | hcl
      · exact shakerBwd_perm _ _ _ hcl
      · rw [shakerBwd_done _ _ _ (by omega)]
    rcases Nat.lt_or_ge (left + 1) right with hbig | hsmall
    · -- window of size at least two: both passes are nontrivial
      have h2hi : ∀ k, right - 1 ≤ k →
          idx (shakerBwd (shakerFwd l left right).1 (right - 1 - 1) left).1
            k = idx (shakerFwd l left right).1 k :=
        fun k hk => bwdFrame k (Or.inr (by omega))
      have h2lo : ∀ k, k < left →
          idx (shakerBwd (shakerFwd l left right).1 (right - 1 - 1) left).1
            k = idx l k := by
        intro k hk
        rw [bwdFrame k (Or.inl hk), fwdFrame k (Or.inl hk)]
      have h1hi : ∀ k, right ≤ k →
          idx (shakerFwd l left right).1 k = idx l k :=
        fun k hk => fwdFrame k (Or.inr hk)
      have fwdVF := shakerFwd_valuesFrom l left right left (le_refl left) hr
      have fwdMax := shakerFwd_max l left right left hlr hr
        (fun k h1 h2 => absurd h2 (by omega))
      have bwdVF := shakerBwd_valuesFrom (shakerFwd l left right).1
        (right - 1 - 1) left (by omega) (right - 1 - 1) (le_refl _)
      have bwdMin := shakerBwd_min (shakerFwd l left right).1
        (right - 1 - 1) left (right - 1 - 1) (by omega) (by omega)
        (le_refl _) (fun k h1 h2 => absurd h1 (by omega))
      have h1r1 : ∃ k, left ≤ k ∧ k < right ∧
          idx (shakerFwd l left right).1 (right - 1) = idx l k :=
        fwdVF (right - 1) (by omega) (by omega)
      have h2win : ∀ p, left ≤ p → p ≤ right - 1 - 1 →
          ∃ k, left ≤ k ∧ k < right ∧
            idx (shakerBwd (shakerFwd l left right).1 (right - 1 - 1)
              left).1 p = idx l k := by
        intro p hp1 hp2
        obtain ⟨k1, hk1a, hk1b, hv1⟩ := bwdVF p hp1 hp2
        obtain ⟨k2, hk2a, hk2b, hv2⟩ := fwdVF k1 hk1a (by omega)
        exact ⟨k2, hk2a, hk2b, by rw [hv1, hv2]⟩
      have h2winA := bwdVF
      have J1n : ∀ p q, p < q → q < left + 1 →
          idx (shakerBwd (shakerFwd l left right).1 (right - 1 - 1) left).1
            p ≤
          idx (shakerBwd (shakerFwd l left right).1 (right - 1 - 1) left).1
            q := by
        intro p q hpq hq
        rcases Nat.lt_or_ge q left with hq' | hq'
        · rw [h2lo p (by omega), h2lo q hq']
          exact J1 p q hpq hq'
        · have hq2 : q = left := by omega
          subst hq2
          obtain ⟨k2, hk2a, hk2b, hv⟩ := h2win q (le_refl q) (by omega)
          rw [h2lo p hpq, hv]
          exact J2 p k2 hpq hk2a (by omega)
      have J2n : ∀ p q, p < left + 1 → left + 1 ≤ q → q < l.length →
          idx (shakerBwd (shakerFwd l left right).1 (right - 1 - 1) left).1
            p ≤
          idx (shakerBwd (shakerFwd l left right).1 (right - 1 - 1) left).1
            q := by
        intro p q hp hq hqn
        rcases Nat.lt_or_ge p left with hp' | hp'
        · rw [h2lo p hp']
          rcases Nat.lt_or_ge q (right - 1) with hq' | hq'
          · obtain ⟨k2, hk2a, hk2b, hv⟩ := h2win q (by omega) (by omega)
            rw [hv]
            exact J2 p k2 hp' hk2a (by omega)
          · rcases Nat.eq_or_lt_of_le hq' with hq2 | hq2
            · obtain ⟨k, hka, hkb, hv⟩ := h1r1
              rw [← hq2, h2hi _ (le_refl _), hv]
              exact J2 p k hp' hka (by omega)
            · rw [h2hi q (by omega), h1hi q (by omega)]
              exact J2 p q hp' (by omega) hqn
        · have hp2 : p = left := by omega
          subst hp2
          rcases Nat.lt_or_ge q (right - 1) with hq' | hq'
          · exact bwdMin q (by omega) (by omega)
          · obtain ⟨k1, hk1a, hk1b, hv1⟩ := h2winA p (le_refl p) (by omega)
            rcases Nat.eq_or_lt_of_le hq' with hq2 | hq2
            · rw [← hq2, h2hi _ (le_refl _), hv1]
              exact fwdMax k1 hk1a (by omega)
            · obtain ⟨k2, hk2a, hk2b, hv2⟩ := fwdVF k1 hk1a (by omega)
              rw [h2hi q (by omega), h1hi q (by omega), hv1, hv2]
              exact J4 k2 q hk2b (by omega) hqn
      have J3n : ∀ p q, right - 1 ≤ p → p < q → q < l.length →
          idx (shakerBwd (shakerFwd l left right).1 (right - 1 - 1) left).1
            p ≤
          idx (shakerBwd (shakerFwd l left right).1 (right - 1 - 1) left).1
            q := by
        intro p q hp hpq hqn
        rw [h2hi p hp, h2hi q (by omega)]
        rcases Nat.eq_or_lt_of_le hp with hp2 | hp2
        · obtain ⟨k, hka, hkb, hv⟩ := h1r1
          rw [← hp2, hv, h1hi q (by omega)]
          exact J4 k q hkb (by omega) hqn
        · rw [h1hi p (by omega), h1hi q (by omega)]
          exact J3 p q (by omega) hpq hqn
      have J4n : ∀ p q, p < right - 1 → right - 1 ≤ q → q < l.length →
          idx (shakerBwd (shakerFwd l left right).1 (right - 1 - 1) left).1
            p ≤
          idx (shakerBwd (shakerFwd l left right).1 (right - 1 - 1) left).1
            q := by
        intro p q hp hq hqn
        rcases Nat.lt_or_ge p left with hp' | hp'
        · exact J2n p q (by omega) (by omega) hqn
        · obtain ⟨k1, hk1a, hk1b, hv1⟩ := h2winA p hp' (by omega)
          rcases Nat.eq_or_lt_of_le hq with hq2 | hq2
          · rw [← hq2, h2hi _ (le_refl _), hv1]
            exact fwdMax k1 hk1a (by omega)
          · obtain ⟨k2, hk2a, hk2b, hv2⟩ := fwdVF k1 hk1a (by omega)
            rw [h2hi q (by omega), h1hi q (by omega), hv1, hv2]
            exact J4 k2 q hk2b (by omega) hqn
      obtain ⟨hs, hp⟩ := ih (by omega)
        (fun p q h1 h2 => J1n p q h1 h2)
        (fun p q h1 h2 h3 => J2n p q h1 h2 (by rw [← hlen2]; exact h3))
        (fun p q h1 h2 h3 => J3n p q h1 h2 (by rw [← hlen2]; exact h3))
        (fun p q h1 h2 h3 => J4n p q h1 h2 (by rw [← hlen2]; exact h3))
      exact ⟨hs, hp.trans (bwdPerm.trans fwdPerm)⟩
    · -- window of size exactly one: both passes are no-ops
      have hreq : right = left + 1 := by omega
      have hl2eq : (shakerBwd (shakerFwd l left right).1 (right - 1 - 1)
          left).1 = l := by
        rw [shakerBwd_done _ _ _ (by omega), shakerFwd_done _ _ _ (by omega)]
      rw [hl2eq] at ih ⊢
      refine ih (by omega) ?_ ?_ ?_ ?_
      · intro p q hpq hq
        rcases Nat.lt_or_ge q left with hq' | hq'
        · exact J1 p q hpq hq'
        · have hq2 : q = left := by omega
          subst hq2
          exact J2 p q hpq (le_refl q) (by omega)
      · intro p q hp hq hqn
        rcases Nat.lt_or_ge p left with hp' | hp'
        · exact J2 p q hp' (by omega) hqn
        · have hp2 : p = left := by omega
          subst hp2
          exact J4 p q (by omega) (by omega) hqn
      · intro p q hp hpq hqn
        rcases Nat.eq_or_lt_of_le hp with hp2 | hp2
        · rw [← hp2]
          exact J4 (right - 1) q (by omega) (by omega) hqn
        · exact J3 p q (by omega) hpq hqn
      · intro p q hp hq hqn
        exact J2 p q (by omega) (by omega) hqn
  | case2 l left right hlr =>
    intro hr J1 J2 J3 J4
    rw [shakerGo_done l left right hlr]
    refine ⟨sorted_of_idx_mono l ?_, List.Perm.refl l⟩
    intro p q hpq hq
    rcases Nat.lt_or_ge q left with hq' | hq'
    · exact J1 p q hpq hq'
    · rcases Nat.lt_or_ge p right with hp' | hp'
      · exact J4 p q hp' (by omega) hq
      · exact J3 p q hp' hpq hq

/-- shaker_sort produces a sorted permutation of its input. -/
theorem shaker_sort_sorted_perm (l : List α) :
    (shaker_sort l).1.Sorted (· ≤ ·) ∧ (shaker_sort l).1 ~ l := by
  refine shakerGo_inv l 0 l.length (le_refl _) ?_ ?_ ?_ ?_
  · intro p q hpq hq
    omega
  · intro p q hp hq hqn
    omega
  · intro p q hp hpq hqn
    omega
  · intro p q hp hq hqn
    omega

/-!
## Quicksort (main.cpp, quicksort; Lomuto partition, recursive)

```
void quicksort(first, last, shader, window, OG_first, OG_last) {
  if (first >= last) {return;}          // comment: Return if only 1 element
  const auto pivot_value = *(last - 1);
  RandomIt pivot_pos = first;
  for (RandomIt j = first; j != last - 1; ++j)
    if (*j < pivot_value) {
      std::swap(*pivot_pos, *j); ++pivot_pos;
      draw_array(OG_first, OG_last, ...);
    }
  std::swap(*pivot_pos, *(last - 1));
  draw_array(OG_first, OG_last, ...);
  quicksort(first, pivot_pos, ..., OG_first, OG_last);
  quicksort(pivot_pos + 1, last, ..., OG_first, OG_last);
}
```
The embedding records a trace of events: every recursive invocation, every
exchange, and every draw_array notification together with the range it
reports.  The loop guard j != last - 1 is embedded as j + 1 < last, which
agrees with it on every reachable state (j ≤ last - 1 and last ≥ 1).
-/

/-- Events of a quicksort run: recursive invocations on a sub-range, loop
exchanges, the pivot-placing exchange, and observer notifications carrying
the reported range. -/
inductive QEv : Type
  | call (first last : Nat)
  | swapLoop (i j : Nat)
  | pivotSwap (i j : Nat)
  | notify (first last : Nat)
deriving DecidableEq, Repr

/-- The Lomuto partition loop of quicksort: j scans [first, last - 1),
pp is the boundary of the confirmed-less-than-pivot region.  Returns the
new state, the final boundary and the event trace. -/
def qpart (l : List α) (pv : α) (pp j last ogf ogl : Nat) :
    List α × Nat × List QEv :=
  if j + 1 < last then
    if idx l j < pv then
      ((qpart (lswap l pp j) pv (pp + 1) (j + 1) last ogf ogl).1,
       (qpart (lswap l pp j) pv (pp + 1) (j + 1) last ogf ogl).2.1,
       QEv.swapLoop pp j :: QEv.notify ogf ogl ::
         (qpart (lswap l pp j) pv (pp + 1) (j + 1) last ogf ogl).2.2)
    else qpart l pv pp (j + 1) last ogf ogl
  else (l, pp, [])
termination_by last - j

theorem qpart_step_lt (l : List α) (pv : α) (pp j last ogf ogl : Nat)
    (hj : j + 1 < last) (hlt : idx l j < pv) :
    qpart l pv pp j last ogf ogl =
      ((qpart (lswap l pp j) pv (pp + 1) (j + 1) last ogf ogl).1,
       (qpart (lswap l pp j) pv (pp + 1) (j + 1) last ogf ogl).2.1,
       QEv.swapLoop pp j :: QEv.notify ogf ogl ::
         (qpart (lswap l pp j) pv (pp + 1) (j + 1) last ogf ogl).2.2) := by
  rw [qpart]
  simp [hj, hlt]

theorem qpart_step_ge (l : List α) (pv : α) (pp j last ogf ogl : Nat)
    (hj : j + 1 < last) (hlt : ¬ idx l j < pv) :
    qpart l pv pp j last ogf ogl = qpart l pv pp (j + 1) last ogf ogl := by
  rw [qpart]
  simp [hj, hlt]

theorem qpart_done (l : List α) (pv : α) (pp j last ogf ogl : Nat)
    (hj : ¬ j + 1 < last) : qpart l pv pp j last ogf ogl = (l, pp, []) := by
  rw [qpart]
  simp [hj]

theorem qpart_pp_ge (l : List α) (pv : α) (pp j last ogf ogl : Nat) :
    pp ≤ (qpart l pv pp j last ogf ogl).2.1 := by
  induction l, pv, pp, j, last, ogf, ogl using qpart.induct with
  | case1 l pv pp j last ogf ogl hj hlt ih =>
    rw [qpart_step_lt l pv pp j last ogf ogl hj hlt]
    exact le_trans (by omega) ih
  | case2 l pv pp j last ogf ogl hj hlt ih =>
    rw [qpart_step_ge l pv pp j last ogf ogl hj hlt]
    exact ih
  | case3 l pv pp j last ogf ogl hj =>
    rw [qpart_done l pv pp j last ogf ogl hj]

theorem qpart_pp_lt (l : List α) (pv : α) (pp j last ogf ogl : Nat)
    (hppj : pp ≤ j) (hj : j < last) :
    (qpart l pv pp j last ogf ogl).2.1 < last := by
  induction l, pv, pp, j, last, ogf, ogl using qpart.induct with
  | case1 l pv pp j last ogf ogl hj1 hlt ih =>
    rw [qpart_step_lt l pv pp j last ogf ogl hj1 hlt]
    exact ih (by omega) (by omega)
  | case2 l pv pp j last ogf ogl hj1 hlt ih =>
    rw [qpart_step_ge l pv pp j last ogf ogl hj1 hlt]
    exact ih (by omega) (by omega)
  | case3 l pv pp j last ogf ogl hj1 =>
    rw [qpart_done l pv pp j last ogf ogl hj1]
    dsimp only
    omega

/-- Recursive quicksort on the sub-range [first, last), threading the
original range [ogf, ogl) through every call for the notifications.  The
trace records the invocation itself, the partition events, the
unconditional pivot-placing exchange with its notification, and the traces
of the two recursive calls. -/
def quicksortGo (l : List α) (first last ogf ogl : Nat) :
    List α × List QEv :=
  if last ≤ first then (l, [QEv.call first last])
  else
    let p := qpart l (idx l (last - 1)) first first last ogf ogl
    let l2 := lswap p.1 p.2.1 (last - 1)
    let r1 := quicksortGo l2 first p.2.1 ogf ogl
    let r2 := quicksortGo r1.1 (p.2.1 + 1) last ogf ogl
    (r2.1, QEv.call first last :: (p.2.2 ++
      (QEv.pivotSwap p.2.1 (last - 1) :: QEv.notify ogf ogl ::
        (r1.2 ++ r2.2))))
termination_by last - first
decreasing_by
  · have h1 := qpart_pp_lt l (idx l (last - 1)) first first last ogf ogl
      (le_refl first) (by omega)
    omega
  · have h1 := qpart_pp_ge l (idx l (last - 1)) first first last ogf ogl
    omega

/-- quicksort as invoked by the program: the original range passed for
reporting coincides with the range being sorted. -/
def quicksort (l : List α) : List α × List QEv :=
  quicksortGo l 0 l.length 0 l.length

theorem qpart_length (l : List α) (pv : α) (pp j last ogf ogl : Nat) :
    (qpart l pv pp j last ogf ogl).1.length = l.length := by
  induction l, pv, pp, j, last, ogf, ogl using qpart.induct with
  | case1 l pv pp j last ogf ogl hj hlt ih =>
    rw [qpart_step_lt l pv pp j last ogf ogl hj hlt]
    simpa using ih
  | case2 l pv pp j last ogf ogl hj hlt ih =>
    rw [qpart_step_ge l pv pp j last ogf ogl hj hlt]
    exact ih
  | case3 l pv pp j last ogf ogl hj =>
    rw [qpart_done l pv pp j last ogf ogl hj]

theorem qpart_perm (l : List α) (pv : α) (pp j last ogf ogl : Nat)
    (hppj : pp ≤ j) (hlast : last ≤ l.length) :
    (qpart l pv pp j last ogf ogl).1 ~ l := by
  induction l, pv, pp, j, last, ogf, ogl using qpart.induct with
  | case1 l pv pp j last ogf ogl hj hlt ih =>
    rw [qpart_step_lt l pv pp j last ogf ogl hj hlt]
    exact (ih (by omega) (by simpa using hlast)).trans
      (lswap_perm l pp j (by omega) (by omega))
  | case2 l pv pp j last ogf ogl hj hlt ih =>
    rw [qpart_step_ge l pv pp j last ogf ogl hj hlt]
    exact ih (by omega) hlast
  | case3 l pv pp j last ogf ogl hj =>
    rw [qpart_done l pv pp j last ogf ogl hj]

theorem qpart_frame (l : List α) (pv : α) (pp j last ogf ogl : Nat)
    (hppj : pp ≤ j) :
    ∀ k, k < pp ∨ last - 1 ≤ k →
      idx (qpart l pv pp j last ogf ogl).1 k = idx l k := by
  induction l, pv, pp, j, last, ogf, ogl using qpart.induct with
  | case1 l pv pp j last ogf ogl hj hlt ih =>
    intro k hk
    rw [qpart_step_lt l pv pp j last ogf ogl hj hlt]
    rw [ih (by omega) k (by omega),
      idx_lswap_other l pp j k (by omega) (by omega)]
  | case2 l pv pp j last ogf ogl hj hlt ih =>
    intro k hk
    rw [qpart_step_ge l pv pp j last ogf ogl hj hlt]
    exact ih (by omega) k hk
  | case3 l pv pp j last ogf ogl hj =>
    intro k _
    rw [qpart_done l pv pp j last ogf ogl hj]

theorem qpart_valuesFrom (l : List α) (pv : α) (pp j last ogf ogl lo : Nat)
    (hlo : lo ≤ pp) (hppj : pp ≤ j) (hlast : last ≤ l.length) :
    ∀ p, lo ≤ p → p < last - 1 →
      ∃ k, lo ≤ k ∧ k < last - 1 ∧
        idx (qpart l pv pp j last ogf ogl).1 p = idx l k := by
  induction l, pv, pp, j, last, ogf, ogl using qpart.induct with
  | case1 l pv pp j last ogf ogl hj hlt ih =>
    intro p hp1 hp2
    rw [qpart_step_lt l pv pp j last ogf ogl hj hlt]
    obtain ⟨k, hk1, hk2, hval⟩ := ih (by omega) (by omega)
      (by simpa using hlast) p hp1 hp2
    rcases eq_or_ne k pp with rfl | hkp
    · exact ⟨j, by omega, by omega,
        by rw [hval, idx_lswap_fst l k j (by omega)]⟩
    rcases eq_or_ne k j with rfl | hkj
    · exact ⟨pp, hlo, by omega,
        by rw [hval, idx_lswap_snd l pp k (by omega)]⟩
    · exact ⟨k, hk1, hk2, by rw [hval, idx_lswap_other l pp j k hkp hkj]⟩
  | case2 l pv pp j last ogf ogl hj hlt ih =>
    intro p hp1 hp2
    rw [qpart_step_ge l pv pp j last ogf ogl hj hlt]
    exact ih hlo (by omega) hlast p hp1 hp2
  | case3 l pv pp j last ogf ogl hj =>
    intro p hp1 hp2
    rw [qpart_done l pv pp j last ogf ogl hj]
    exact ⟨p, hp1, hp2, rfl⟩

/-- Lomuto partition postcondition: after the loop, every element strictly
below the boundary is smaller than the pivot value and every element from
the boundary up to the pivot slot is at least the pivot value. -/
theorem qpart_post (l : List α) (pv : α) (pp j last ogf ogl lo : Nat)
    (hlo : lo ≤ pp) (hppj : pp ≤ j) (hjl : j + 1 ≤ last)
    (hlast : last ≤ l.length)
    (Ha : ∀ k, lo ≤ k → k < pp → idx l k < pv)
    (Hb : ∀ k, pp ≤ k → k < j → pv ≤ idx l k) :
    (∀ k, lo ≤ k → k < (qpart l pv pp j last ogf ogl).2.1 →
      idx (qpart l pv pp j last ogf ogl).1 k < pv) ∧
    (∀ k, (qpart l pv pp j last ogf ogl).2.1 ≤ k → k < last - 1 →
      pv ≤ idx (qpart l pv pp j last ogf ogl).1 k) := by
  induction l, pv, pp, j, last, ogf, ogl using qpart.induct with
  | case1 l pv pp j last ogf ogl hj hlt ih =>
    rw [qpart_step_lt l pv pp j last ogf ogl hj hlt]
    refine ih (by omega) (by omega) (by omega) (by simpa using hlast)
      ?_ ?_
    · intro k hk1 hk2
      rcases Nat.lt_or_ge k pp with hkp | hkp
      · rw [idx_lswap_other l pp j k (by omega) (by omega)]
        exact Ha k hk1 hkp
      · have hkp2 : k = pp := by omega
        subst hkp2
        rw [idx_lswap_fst l k j (by omega)]
        exact hlt
    · intro k hk1 hk2
      rcases Nat.lt_or_ge k j with hkj | hkj
      · rw [idx_lswap_other l pp j k (by omega) (by omega)]
        exact Hb k (by omega) hkj
      · have hkj2 : k = j := by omega
        subst hkj2
        have hppk : pp < k := by omega
        rw [idx_lswap_snd l pp k (by omega)]
        exact Hb pp (le_refl pp) hppk
  | case2 l pv pp j last ogf ogl hj hlt ih =>
    rw [qpart_step_ge l pv pp j last ogf ogl hj hlt]
    refine ih hlo (by omega) (by omega) hlast Ha ?_
    intro k hk1 hk2
    rcases Nat.lt_or_ge k j with hkj | hkj
    · exact Hb k hk1 hkj
    · have hkj2 : k = j := by omega
      subst hkj2
      exact le_of_not_lt hlt
  | case3 l pv pp j last ogf ogl hj =>
    rw [qpart_done l pv pp j last ogf ogl hj]
    refine ⟨Ha, ?_⟩
    intro k hk1 hk2
    exact Hb k hk1 (by omega)

/-- Every notification recorded by the partition loop reports exactly the
original range. -/
theorem qpart_notify (l : List α) (pv : α) (pp j last ogf ogl : Nat) :
    ∀ a b, QEv.notify a b ∈ (qpart l pv pp j last ogf ogl).2.2 →
      a = ogf ∧ b = ogl := by
  induction l, pv, pp, j, last, ogf, ogl using qpart.induct with
  | case1 l pv pp j last ogf ogl hj hlt ih =>
    intro a b hmem
    rw [qpart_step_lt l pv pp j last ogf ogl hj hlt] at hmem
    simp only [List.mem_cons] at hmem
    rcases hmem with h | h | h
    · exact absurd h (by simp)
    · exact ⟨by injection h, by injection h with h1 h2⟩
    · exact ih a b h
  | case2 l pv pp j last ogf ogl hj hlt ih =>
    intro a b hmem
    rw [qpart_step_ge l pv pp j last ogf ogl hj hlt] at hmem
    exact ih a b hmem
  | case3 l pv pp j last ogf ogl hj =>
    intro a b hmem
    rw [qpart_done l pv pp j last ogf ogl hj] at hmem
    simp at hmem

theorem quicksortGo_base (l : List α) (first last ogf ogl : Nat)
    (h : last ≤ first) :
    quicksortGo l first last ogf ogl = (l, [QEv.call first last]) := by
  rw [quicksortGo]
  simp [h]

theorem quicksortGo_step (l : List α) (first last ogf ogl : Nat)
    (h : ¬ last ≤ first) :
    quicksortGo l first last ogf ogl =
      ((quicksortGo
          (quicksortGo
            (lswap (qpart l (idx l (last - 1)) first first last ogf ogl).1
              (qpart l (idx l (last - 1)) first first last ogf ogl).2.1
              (last - 1))
            first (qpart l (idx l (last - 1)) first first last ogf ogl).2.1
            ogf ogl).1
          ((qpart l (idx l (last - 1)) first first last ogf ogl).2.1 + 1)
          last ogf ogl).1,
       QEv.call first last ::
         ((qpart l (idx l (last - 1)) first first last ogf ogl).2.2 ++
          (QEv.pivotSwap
              (qpart l (idx l (last - 1)) first first last ogf ogl).2.1
              (last - 1) ::
           QEv.notify ogf ogl ::
           ((quicksortGo
               (lswap (qpart l (idx l (last - 1)) first first last ogf
                   ogl).1
                 (qpart l (idx l (last - 1)) first first last ogf ogl).2.1
                 (last - 1))
               first
               (qpart l (idx l (last - 1)) first first last ogf ogl).2.1
               ogf ogl).2 ++
            (quicksortGo
               (quicksortGo
                 (lswap (qpart l (idx l (last - 1)) first first last ogf
                     ogl).1
                   (qpart l (idx l (last - 1)) first first last ogf
                     ogl).2.1
                   (last - 1))
                 first
                 (qpart l (idx l (last - 1)) first first last ogf ogl).2.1
                 ogf ogl).1
               ((qpart l (idx l (last - 1)) first first last ogf ogl).2.1 +
                 1)
               last ogf ogl).2)))) := by
  rw [quicksortGo]
  simp [h]

theorem quicksortGo_length_fuel : ∀ (d : Nat) (l : List α)
    (first last ogf ogl : Nat), last - first ≤ d →
    (quicksortGo l first last ogf ogl).1.length = l.length := by
  intro d
  induction d with
  | zero =>
    intro l first last ogf ogl hd
    rw [quicksortGo_base l first last ogf ogl (by omega)]
  | succ d ih =>
    intro l first last ogf ogl hd
    rcases le_or_lt last first with hle | hlt
    · rw [quicksortGo_base l first last ogf ogl hle]
    · rw [quicksortGo_step l first last ogf ogl (by omega)]
      have hge := qpart_pp_ge l (idx l (last - 1)) first first last ogf ogl
      have hlt2 := qpart_pp_lt l (idx l (last - 1)) first first last ogf ogl
        (le_refl first) hlt
      rw [ih _ _ _ _ _ (by omega), ih _ _ _ _ _ (by omega), length_lswap,
        qpart_length]

theorem quicksortGo_length (l : List α) (first last ogf ogl : Nat) :
    (quicksortGo l first last ogf ogl).1.length = l.length :=
  quicksortGo_length_fuel (last - first) l first last ogf ogl (le_refl _)

theorem quicksortGo_frame_fuel : ∀ (d : Nat) (l : List α)
    (first last ogf ogl : Nat), last - first ≤ d →
    ∀ k, k < first ∨ last ≤ k →
      idx (quicksortGo l first last ogf ogl).1 k = idx l k := by
  intro d
  induction d with
  | zero =>
    intro l first last ogf ogl hd k hk
    rw [quicksortGo_base l first last ogf ogl (by omega)]
  | succ d ih =>
    intro l first last ogf ogl hd k hk
    rcases le_or_lt last first with hle | hlt
    · rw [quicksortGo_base l first last ogf ogl hle]
    · rw [quicksortGo_step l first last ogf ogl (by omega)]
      have hge := qpart_pp_ge l (idx l (last - 1)) first first last ogf ogl
      have hlt2 := qpart_pp_lt l (idx l (last - 1)) first first last ogf ogl
        (le_refl first) hlt
      rw [ih _ _ _ _ _ (by omega) k (by omega),
        ih _ _ _ _ _ (by omega) k (by omega),
        idx_lswap_other _ _ _ k (by omega) (by omega),
        qpart_frame l (idx l (last - 1)) first first last ogf ogl
          (le_refl first) k (by omega)]

theorem quicksortGo_frame (l : List α) (first last ogf ogl : Nat) :
    ∀ k, k < first ∨ last ≤ k →
      idx (quicksortGo l first last ogf ogl).1 k = idx l k :=
  quicksortGo_frame_fuel (last - first) l first last ogf ogl (le_refl _)

theorem quicksortGo_valuesFrom_fuel : ∀ (d : Nat) (l : List α)
    (first last ogf ogl : Nat), last - first ≤ d → last ≤ l.length →
    ∀ p, first ≤ p → p < last →
      ∃ k, first ≤ k ∧ k < last ∧
        idx (quicksortGo l first last ogf ogl).1 p = idx l k := by
  intro d
  induction d with
  | zero =>
    intro l first last ogf ogl hd hlen p hp1 hp2
    omega
  | succ d ih =>
    intro l first last ogf ogl hd hlen p hp1 hp2
    rcases le_or_lt last first with hle | hlt
    · omega
    · rw [quicksortGo_step l first last ogf ogl (by omega)]
      have hge := qpart_pp_ge l (idx l (last - 1)) first first last ogf ogl
      have hlt2 := qpart_pp_lt l (idx l (last - 1)) first first last ogf ogl
        (le_refl first) hlt
      have hlen2 : (lswap (qpart l (idx l (last - 1)) first first last ogf
          ogl).1 (qpart l (idx l (last - 1)) first first last ogf ogl).2.1
          (last - 1)).length = l.length := by
        rw [length_lswap, qpart_length]
      have hlenr1 : (quicksortGo
          (lswap (qpart l (idx l (last - 1)) first first last ogf ogl).1
            (qpart l (idx l (last - 1)) first first last ogf ogl).2.1
            (last - 1))
          first (qpart l (idx l (last - 1)) first first last ogf ogl).2.1
          ogf ogl).1.length = l.length := by
        rw [quicksortGo_length, hlen2]
      -- localize the value at p step by step through the two recursive
      -- calls, the pivot exchange and the partition
      have hQVF := qpart_valuesFrom l (idx l (last - 1)) first first last
        ogf ogl first (le_refl first) (le_refl first) hlen
      have hQpiv : idx (qpart l (idx l (last - 1)) first first last ogf
          ogl).1 (last - 1) = idx l (last - 1) :=
        qpart_frame l (idx l (last - 1)) first first last ogf ogl
          (le_refl first) (last - 1) (Or.inr (le_refl _))
      -- values of the post-exchange state come from [first, last) of l
      have hl2 : ∀ m, first ≤ m → m < last →
          ∃ k, first ≤ k ∧ k < last ∧
            idx (lswap (qpart l (idx l (last - 1)) first first last ogf
              ogl).1 (qpart l (idx l (last - 1)) first first last ogf
              ogl).2.1 (last - 1)) m = idx l k := by
        intro m hm1 hm2
        rcases eq_or_ne m (qpart l (idx l (last - 1)) first first last ogf
            ogl).2.1 with rfl | hmp
        · refine ⟨last - 1, by omega, by omega, ?_⟩
          rw [idx_lswap_fst _ _ _ (by rw [qpart_length]; omega), hQpiv]
        rcases eq_or_ne m (last - 1) with rfl | hml
        · obtain ⟨k, hk1, hk2, hv⟩ := hQVF
            (qpart l (idx l (last - 1)) first first last ogf ogl).2.1
            (by omega) (by omega)
          refine ⟨k, hk1, by omega, ?_⟩
          rw [idx_lswap_snd _ _ _ (by rw [qpart_length]; omega), hv]
        · obtain ⟨k, hk1, hk2, hv⟩ := hQVF m hm1 (by omega)
          refine ⟨k, hk1, by omega, ?_⟩
          rw [idx_lswap_other _ _ _ m hmp hml, hv]
      rcases Nat.lt_or_ge p ((qpart l (idx l (last - 1)) first first last
          ogf ogl).2.1 + 1) with hpp | hpp
      · -- p is inside or at the boundary of the left recursion
        rw [quicksortGo_frame
          (quicksortGo
            (lswap (qpart l (idx l (last - 1)) first first last ogf ogl).1
              (qpart l (idx l (last - 1)) first first last ogf ogl).2.1
              (last - 1))
            first (qpart l (idx l (last - 1)) first first last ogf ogl).2.1
            ogf ogl).1
          ((qpart l (idx l (last - 1)) first first last ogf ogl).2.1 + 1)
          last ogf ogl p (Or.inl hpp)]
        rcases Nat.lt_or_ge p (qpart l (idx l (last - 1)) first first last
            ogf ogl).2.1 with hpp2 | hpp2
        · obtain ⟨k1, hk1a, hk1b, hv1⟩ := ih
            (lswap (qpart l (idx l (last - 1)) first first last ogf ogl).1
              (qpart l (idx l (last - 1)) first first last ogf ogl).2.1
              (last - 1))
            first (qpart l (idx l (last - 1)) first first last ogf ogl).2.1
            ogf ogl (by omega) (by rw [hlen2]; omega) p hp1 hpp2
          obtain ⟨k, hk1, hk2, hv⟩ := hl2 k1 hk1a (by omega)
          exact ⟨k, hk1, hk2, by rw [hv1, hv]⟩
        · rw [quicksortGo_frame
            (lswap (qpart l (idx l (last - 1)) first first last ogf ogl).1
              (qpart l (idx l (last - 1)) first first last ogf ogl).2.1
              (last - 1))
            first (qpart l (idx l (last - 1)) first first last ogf ogl).2.1
            ogf ogl p (Or.inr hpp2)]
          exact hl2 p hp1 hp2
      · -- p lies in the right recursion
        obtain ⟨k2, hk2a, hk2b, hv2⟩ := ih
          (quicksortGo
            (lswap (qpart l (idx l (last - 1)) first first last ogf ogl).1
              (qpart l (idx l (last - 1)) first first last ogf ogl).2.1
              (last - 1))
            first (qpart l (idx l (last - 1)) first first last ogf ogl).2.1
            ogf ogl).1
          ((qpart l (idx l (last - 1)) first first last ogf ogl).2.1 + 1)
          last ogf ogl (by omega) (by rw [hlenr1]; omega) p hpp hp2
        rw [quicksortGo_frame
          (lswap (qpart l (idx l (last - 1)) first first last ogf ogl).1
            (qpart l (idx l (last - 1)) first first last ogf ogl).2.1
            (last - 1))
          first (qpart l (idx l (last - 1)) first first last ogf ogl).2.1
          ogf ogl k2 (Or.inr (by omega))] at hv2
        obtain ⟨k, hk1, hk2, hv⟩ := hl2 k2 (by omega) hk2b
        exact ⟨k, hk1, hk2, by rw [hv2, hv]⟩

theorem quicksortGo_valuesFrom (l : List α) (first last ogf ogl : Nat)
    (hlen : last ≤ l.length) :
    ∀ p, first ≤ p → p < last →
      ∃ k, first ≤ k ∧ k < last ∧
        idx (quicksortGo l first last ogf ogl).1 p = idx l k :=
  quicksortGo_valuesFrom_fuel (last - first) l first last ogf ogl
    (le_refl _) hlen

theorem quicksortGo_perm_fuel : ∀ (d : Nat) (l : List α)
    (first last ogf ogl : Nat), last - first ≤ d → last ≤ l.length →
    (quicksortGo l first last ogf ogl).1 ~ l := by
  intro d
  induction d with
  | zero =>
    intro l first last ogf ogl hd hlen
    rw [quicksortGo_base l first last ogf ogl (by omega)]
  | succ d ih =>
    intro l first last ogf ogl hd hlen
    rcases le_or_lt last first with hle | hlt
    · rw [quicksortGo_base l first last ogf ogl hle]
    · rw [quicksortGo_step l first last ogf ogl (by omega)]
      have hge := qpart_pp_ge l (idx l (last - 1)) first first last ogf ogl
      have hlt2 := qpart_pp_lt l (idx l (last - 1)) first first last ogf ogl
        (le_refl first) hlt
      have hlen2 : (lswap (qpart l (idx l (last - 1)) first first last ogf
          ogl).1 (qpart l (idx l (last - 1)) first first last ogf ogl).2.1
          (last - 1)).length = l.length := by
        rw [length_lswap, qpart_length]
      have hlenr1 : (quicksortGo
          (lswap (qpart l (idx l (last - 1)) first first last ogf ogl).1
            (qpart l (idx l (last - 1)) first first last ogf ogl).2.1
            (last - 1))
          first (qpart l (idx l (last - 1)) first first last ogf ogl).2.1
          ogf ogl).1.length = l.length := by
        rw [quicksortGo_length, hlen2]
      refine ((ih _ _ _ _ _ (by omega) (by rw [hlenr1]; omega)).trans
        ((ih _ _ _ _ _ (by omega) (by rw [hlen2]; omega)).trans ?_)).trans
        (qpart_perm l (idx l (last - 1)) first first last ogf ogl
          (le_refl first) hlen)
      exact lswap_perm _ _ _ (by rw [qpart_length]; omega)
        (by rw [qpart_length]; omega)

theorem quicksortGo_perm (l : List α) (first last ogf ogl : Nat)
    (hlen : last ≤ l.length) : (quicksortGo l first last ogf ogl).1 ~ l :=
  quicksortGo_perm_fuel (last - first) l first last ogf ogl (le_refl _) hlen

theorem quicksortGo_notify_fuel : ∀ (d : Nat) (l : List α)
    (first last ogf ogl : Nat), last - first ≤ d →
    ∀ a b, QEv.notify a b ∈ (quicksortGo l first last ogf ogl).2 →
      a = ogf ∧ b = ogl := by
  intro d
  induction d with
  | zero =>
    intro l first last ogf ogl hd a b hmem
    rw [quicksortGo_base l first last ogf ogl (by omega)] at hmem
    simp at hmem
  | succ d ih =>
    intro l first last ogf ogl hd a b hmem
    rcases le_or_lt last first with hle | hlt
    · rw [quicksortGo_base l first last ogf ogl hle] at hmem
      simp at hmem
    · rw [quicksortGo_step l first last ogf ogl (by omega)] at hmem
      have hge := qpart_pp_ge l (idx l (last - 1)) first first last ogf ogl
      have hlt2 := qpart_pp_lt l (idx l (last - 1)) first first last ogf ogl
        (le_refl first) hlt
      simp only [List.mem_cons, List.mem_append] at hmem
      rcases hmem with h | h | h | h | h | h
      · exact absurd h (by simp)
      · exact qpart_notify l (idx l (last - 1)) first first last ogf ogl
          a b h
      · exact absurd h (by simp)
      · exact ⟨by injection h, by injection h with h1 h2⟩
      · exact ih _ _ _ _ _ (by omega) a b h
      · exact ih _ _ _ _ _ (by omega) a b h

theorem quicksortGo_notify (l : List α) (first last ogf ogl : Nat) :
    ∀ a b, QEv.notify a b ∈ (quicksortGo l first last ogf ogl).2 →
      a = ogf ∧ b = ogl :=
  quicksortGo_notify_fuel (last - first) l first last ogf ogl (le_refl _)

/-- Main correctness invariant of quicksort: after a call on [first, last),
the positions of that sub-range are in non-decreasing order. -/
theorem quicksortGo_mono_fuel : ∀ (d : Nat) (l : List α)
    (first last ogf ogl : Nat), last - first ≤ d → last ≤ l.length →
    ∀ p q, first ≤ p → p < q → q < last →
      idx (quicksortGo l first last ogf ogl).1 p ≤
        idx (quicksortGo l first last ogf ogl).1 q := by
  intro d
  induction d with
  | zero =>
    intro l first last ogf ogl hd hlen p q hp hpq hq
    omega
  | succ d ih =>
    intro l first last ogf ogl hd hlen p q hp hpq hq
    rcases le_or_lt last first with hle | hlt
    · omega
    · have hge := qpart_pp_ge l (idx l (last - 1)) first first last ogf ogl
      have hlt2 := qpart_pp_lt l (idx l (last - 1)) first first last ogf ogl
        (le_refl first) hlt
      have hQlen : (qpart l (idx l (last - 1)) first first last ogf
          ogl).1.length = l.length := qpart_length l _ first first last _ _
      have hlen2 : (lswap (qpart l (idx l (last - 1)) first first last ogf
          ogl).1 (qpart l (idx l (last - 1)) first first last ogf ogl).2.1
          (last - 1)).length = l.length := by
        rw [length_lswap, hQlen]
      have hlenr1 : (quicksortGo
          (lswap (qpart l (idx l (last - 1)) first first last ogf ogl).1
            (qpart l (idx l (last - 1)) first first last ogf ogl).2.1
            (last - 1))
          first (qpart l (idx l (last - 1)) first first last ogf ogl).2.1
          ogf ogl).1.length = l.length := by
        rw [quicksortGo_length, hlen2]
      have hpost := qpart_post l (idx l (last - 1)) first first last ogf
        ogl first (le_refl first) (le_refl first) (by omega) hlen
        (fun k hk1 hk2 => absurd hk2 (by omega))
        (fun k hk1 hk2 => absurd hk2 (by omega))
      have hQpiv : idx (qpart l (idx l (last - 1)) first first last ogf
          ogl).1 (last - 1) = idx l (last - 1) :=
        qpart_frame l (idx l (last - 1)) first first last ogf ogl
          (le_refl first) (last - 1) (Or.inr (le_refl _))
      -- values of the post-exchange state relative to the pivot value
      have hl2pp : idx (lswap (qpart l (idx l (last - 1)) first first last
          ogf ogl).1 (qpart l (idx l (last - 1)) first first last ogf
          ogl).2.1 (last - 1))
          (qpart l (idx l (last - 1)) first first last ogf ogl).2.1 =
          idx l (last - 1) := by
        rw [idx_lswap_fst _ _ _ (by rw [hQlen]; omega), hQpiv]
      have hl2A : ∀ k, first ≤ k →
          k < (qpart l (idx l (last - 1)) first first last ogf ogl).2.1 →
          idx (lswap (qpart l (idx l (last - 1)) first first last ogf
            ogl).1 (qpart l (idx l (last - 1)) first first last ogf
            ogl).2.1 (last - 1)) k < idx l (last - 1) := by
        intro k hk1 hk2
        rw [idx_lswap_other _ _ _ k (by omega) (by omega)]
        exact hpost.1 k hk1 hk2
      have hl2B : ∀ k,
          (qpart l (idx l (last - 1)) first first last ogf ogl).2.1 < k →
          k < last →
          idx l (last - 1) ≤
            idx (lswap (qpart l (idx l (last - 1)) first first last ogf
              ogl).1 (qpart l (idx l (last - 1)) first first last ogf
              ogl).2.1 (last - 1)) k := by
        intro k hk1 hk2
        rcases eq_or_ne k (last - 1) with rfl | hkl
        · rw [idx_lswap_snd _ _ _ (by rw [hQlen]; omega)]
          exact hpost.2 _ (le_refl _) (by omega)
        · rw [idx_lswap_other _ _ _ k (by omega) hkl]
          exact hpost.2 k (by omega) (by omega)
      -- values of the final state relative to the pivot value
      rw [quicksortGo_step l first last ogf ogl (by omega)]
      have hRpp : idx (quicksortGo (quicksortGo
          (lswap (qpart l (idx l (last - 1)) first first last ogf ogl).1
            (qpart l (idx l (last - 1)) first first last ogf ogl).2.1
            (last - 1))
          first (qpart l (idx l (last - 1)) first first last ogf ogl).2.1
          ogf ogl).1
          ((qpart l (idx l (last - 1)) first first last ogf ogl).2.1 + 1)
          last ogf ogl).1
          (qpart l (idx l (last - 1)) first first last ogf ogl).2.1 =
          idx l (last - 1) := by
        rw [quicksortGo_frame _ _ _ _ _ _ (Or.inl (by omega)),
          quicksortGo_frame _ _ _ _ _ _ (Or.inr (le_refl _)), hl2pp]
      have hRA : ∀ k, first ≤ k →
          k < (qpart l (idx l (last - 1)) first first last ogf ogl).2.1 →
          idx (quicksortGo (quicksortGo
            (lswap (qpart l (idx l (last - 1)) first first last ogf ogl).1
              (qpart l (idx l (last - 1)) first first last ogf ogl).2.1
              (last - 1))
            first (qpart l (idx l (last - 1)) first first last ogf ogl).2.1
            ogf ogl).1
            ((qpart l (idx l (last - 1)) first first last ogf ogl).2.1 + 1)
            last ogf ogl).1 k < idx l (last - 1) := by
        intro k hk1 hk2
        rw [quicksortGo_frame _ _ _ _ _ _ (Or.inl (by omega))]
        obtain ⟨k1, hk1a, hk1b, hv1⟩ := quicksortGo_valuesFrom
          (lswap (qpart l (idx l (last - 1)) first first last ogf ogl).1
            (qpart l (idx l (last - 1)) first first last ogf ogl).2.1
            (last - 1))
          first (qpart l (idx l (last - 1)) first first last ogf ogl).2.1
          ogf ogl (by rw [hlen2]; omega) k hk1 hk2
        rw [hv1]
        exact hl2A k1 hk1a hk1b
      have hRB : ∀ k,
          (qpart l (idx l (last - 1)) first first last ogf ogl).2.1 < k →
          k < last →
          idx l (last - 1) ≤
            idx (quicksortGo (quicksortGo
              (lswap (qpart l (idx l (last - 1)) first first last ogf
                  ogl).1
                (qpart l (idx l (last - 1)) first first last ogf ogl).2.1
                (last - 1))
              first
              (qpart l (idx l (last - 1)) first first last ogf ogl).2.1
              ogf ogl).1
              ((qpart l (idx l (last - 1)) first first last ogf ogl).2.1 +
                1) last ogf ogl).1 k := by
        intro k hk1 hk2
        obtain ⟨k2, hk2a, hk2b, hv2⟩ := quicksortGo_valuesFrom
          (quicksortGo
            (lswap (qpart l (idx l (last - 1)) first first last ogf ogl).1
              (qpart l (idx l (last - 1)) first first last ogf ogl).2.1
              (last - 1))
            first (qpart l (idx l (last - 1)) first first last ogf ogl).2.1
            ogf ogl).1
          ((qpart l (idx l (last - 1)) first first last ogf ogl).2.1 + 1)
          last ogf ogl (by rw [hlenr1]; omega) k (by omega) hk2
        rw [hv2, quicksortGo_frame
          (lswap (qpart l (idx l (last - 1)) first first last ogf ogl).1
            (qpart l (idx l (last - 1)) first first last ogf ogl).2.1
            (last - 1))
          first (qpart l (idx l (last - 1)) first first last ogf ogl).2.1
          ogf ogl k2 (Or.inr (by omega))]
        exact hl2B k2 (by omega) hk2b
      rcases Nat.lt_trichotomy q (qpart l (idx l (last - 1)) first first
          last ogf ogl).2.1 with hq1 | hq1 | hq1
      · -- both p and q lie in the left recursion
        rw [quicksortGo_frame _ _ _ _ _ p (Or.inl (by omega)),
          quicksortGo_frame _ _ _ _ _ q (Or.inl (by omega))]
        exact ih _ first _ ogf ogl (by omega) (by rw [hlen2]; omega)
          p q hp hpq hq1
      · -- q is the pivot position
        rw [hq1, hRpp]
        exact le_of_lt (hRA p hp (by omega))
      · rcases Nat.lt_trichotomy p (qpart l (idx l (last - 1)) first first
            last ogf ogl).2.1 with hp1 | hp1 | hp1
        · exact le_of_lt (lt_of_lt_of_le (hRA p hp hp1) (hRB q hq1 hq))
        · rw [hp1, hRpp]
          exact hRB q hq1 hq
        · exact ih _ _ last ogf ogl (by omega) (by rw [hlenr1]; omega)
            p q (by omega) hpq hq

theorem quicksortGo_mono (l : List α) (first last ogf ogl : Nat)
    (hlen : last ≤ l.length) :
    ∀ p q, first ≤ p → p < q → q < last →
      idx (quicksortGo l first last ogf ogl).1 p ≤
        idx (quicksortGo l first last ogf ogl).1 q :=
  quicksortGo_mono_fuel (last - first) l first last ogf ogl (le_refl _) hlen

/-- quicksort produces a sorted permutation of its input. -/
theorem quicksort_sorted_perm (l : List α) :
    (quicksort l).1.Sorted (· ≤ ·) ∧ (quicksort l).1 ~ l := by
  unfold quicksort
  constructor
  · refine sorted_of_idx_mono _ ?_
    intro p q hpq hq
    rw [quicksortGo_length] at hq
    exact quicksortGo_mono l 0 l.length 0 l.length (le_refl _) p q
      (Nat.zero_le p) hpq hq
  · exact quicksortGo_perm l 0 l.length 0 l.length (le_refl _)

/-!
## Claim theorems
-/

/-- C1: For each of the five sorting functions (bubble_sort, shaker_sort,
selection_sort, insertion_sort, quicksort) and for every finite sequence of
orderable values — including empty, single-element, already-sorted,
reverse-sorted, and all-equal inputs — the state of the range [first, last)
after the call returns is non-decreasing and is a permutation (same
multiset) of the state before the call. -/
theorem claim_C1 (l : List α) :
    ((bubble_sort l).1.Sorted (· ≤ ·) ∧ (bubble_sort l).1 ~ l) ∧
    ((shaker_sort l).1.Sorted (· ≤ ·) ∧ (shaker_sort l).1 ~ l) ∧
    ((selection_sort l).1.Sorted (· ≤ ·) ∧ (selection_sort l).1 ~ l) ∧
    ((insertion_sort l).1.Sorted (· ≤ ·) ∧ (insertion_sort l).1 ~ l) ∧
    ((quicksort l).1.Sorted (· ≤ ·) ∧ (quicksort l).1 ~ l) :=
  ⟨bubble_sort_sorted_perm l, shaker_sort_sorted_perm l,
   selection_sort_sorted_perm l, insertion_sort_sorted_perm l,
   quicksort_sorted_perm l⟩

/-- C2 (code bug evidence): the claim says a quicksort call on a sub-range
of length ≤ 1 performs no element writes, issues no observer notifications
and returns immediately, and the code's own comment agrees ("Return if only
1 element"); but the guard is first >= last, so on the length-1 range
[0, 1) of the input [5] the call executes the pivot self-exchange, issues
one notification and makes two further recursive calls before returning. -/
theorem claim_C2_failing : quicksortGo ([5] : List Int) 0 1 0 1 =
    ([5], [QEv.call 0 1, QEv.pivotSwap 0 0, QEv.notify 0 1,
           QEv.call 0 0, QEv.call 1 1]) := by
  simp [quicksortGo, qpart, lswap, idx, List.set]

/-- C3 (code bug evidence): on the input [2,1] quicksort performs one
partition step with no loop exchange, one pivot-placing exchange with its
notification, and recurses on the length-0 range [0, 0) and the length-1
range [1, 2); the claim (and the code's own base-case comment) says both
return immediately with no exchange and no notification, but the length-1
call performs a pivot self-exchange and issues a second notification.  The
final state is [1,2] as claimed. -/
theorem claim_C3_failing : quicksort ([2,1] : List Int) =
    ([1,2], [QEv.call 0 2, QEv.pivotSwap 0 1, QEv.notify 0 2,
             QEv.call 0 0, QEv.call 1 2, QEv.pivotSwap 1 1, QEv.notify 0 2,
             QEv.call 1 1, QEv.call 2 2]) := by
  simp [quicksort, quicksortGo, qpart, lswap, idx, List.set]

/-- C4: For every call of quicksort where the original range passed for
reporting equals the range being sorted (as in the program's invocation
with OG_first = first and OG_last = last), every observer notification
issued during the entire call — including inside every recursive sub-call
— carries exactly the original full range [OG_first, OG_last), never a
strict sub-range. -/
theorem claim_C4 (l : List α) (first last : Nat) :
    ∀ a b, QEv.notify a b ∈ (quicksortGo l first last first last).2 →
      a = first ∧ b = last :=
  quicksortGo_notify l first last first last

theorem claim_C4_witness : (0 : Nat) = 0 ∧ (2 : Nat) = 2 :=
  claim_C4 ([2,1] : List Int) 0 2 0 2 (by
    have h : (quicksortGo ([2,1] : List Int) 0 2 0 2).2 =
        [QEv.call 0 2, QEv.pivotSwap 0 1, QEv.notify 0 2, QEv.call 0 0,
         QEv.call 1 2, QEv.pivotSwap 1 1, QEv.notify 0 2, QEv.call 1 1,
         QEv.call 2 2] := by
      simp [quicksortGo, qpart, lswap, idx, List.set]
    rw [h]
    simp)

/-- C5: When selection_sort is run on the input [5,3,4,1,2], it performs
exactly 4 placing exchanges (one per outer position 0 through 3, with no
exchange at the final position), issuing 9 notifications in total, and the
final state is [1,2,3,4,5]. -/
theorem claim_C5 :
    selection_sort ([5,3,4,1,2] : List Int) = ([1,2,3,4,5], 9, 4) := by
  simp [selection_sort, selGo, selScan, lswap, idx, List.set]

/-- C6: selection_sort notifies at exactly two kinds of points.  During an
outer step at position fu: the inner scan notifies once per strict
running-minimum improvement (runMinCount of the remaining suffix); if the
element at fu is already minimal over the unsorted suffix, the placing
exchange and its notification are both skipped; otherwise the step performs
exactly one placing exchange followed by exactly one notification; and no
run performs more than one exchange per remaining position. -/
theorem claim_C6 (l : List α) (fu : Nat) (hfu : fu < l.length) :
    ((selGo l fu l.length).2.2 ≤ l.length - fu) ∧
    ((∀ k, fu ≤ k → k < l.length → idx l fu ≤ idx l k) →
      selGo l fu l.length =
        ((selGo l (fu + 1) l.length).1,
         runMinCount (idx l fu) (l.drop (fu + 1)) +
           (selGo l (fu + 1) l.length).2.1,
         (selGo l (fu + 1) l.length).2.2)) ∧
    ((∃ k, fu ≤ k ∧ k < l.length ∧ idx l k < idx l fu) →
      selGo l fu l.length =
        ((selGo (lswap l (selScan l fu (fu + 1) l.length).1 fu)
            (fu + 1) l.length).1,
         runMinCount (idx l fu) (l.drop (fu + 1)) + 1 +
           (selGo (lswap l (selScan l fu (fu + 1) l.length).1 fu)
              (fu + 1) l.length).2.1,
         (selGo (lswap l (selScan l fu (fu + 1) l.length).1 fu)
            (fu + 1) l.length).2.2 + 1)) :=
  ⟨selGo_place_le l fu l.length,
   fun h => selGo_step_min_in_place l fu hfu h,
   fun h => selGo_step_min_not_in_place l fu hfu h⟩

theorem claim_C6_witness :
    (0 < ([2,1] : List Int).length) ∧
    (((selGo ([2,1] : List Int) 0 ([2,1] : List Int).length).2.2 ≤
        ([2,1] : List Int).length - 0) ∧
     ((∀ k, 0 ≤ k → k < ([2,1] : List Int).length →
        idx ([2,1] : List Int) 0 ≤ idx ([2,1] : List Int) k) →
      selGo ([2,1] : List Int) 0 ([2,1] : List Int).length =
        ((selGo ([2,1] : List Int) (0 + 1) ([2,1] : List Int).length).1,
         runMinCount (idx ([2,1] : List Int) 0)
             (([2,1] : List Int).drop (0 + 1)) +
           (selGo ([2,1] : List Int) (0 + 1)
             ([2,1] : List Int).length).2.1,
         (selGo ([2,1] : List Int) (0 + 1)
           ([2,1] : List Int).length).2.2)) ∧
     ((∃ k, 0 ≤ k ∧ k < ([2,1] : List Int).length ∧
        idx ([2,1] : List Int) k < idx ([2,1] : List Int) 0) →
      selGo ([2,1] : List Int) 0 ([2,1] : List Int).length =
        ((selGo (lswap ([2,1] : List Int)
            (selScan ([2,1] : List Int) 0 (0 + 1)
              ([2,1] : List Int).length).1 0)
            (0 + 1) ([2,1] : List Int).length).1,
         runMinCount (idx ([2,1] : List Int) 0)
             (([2,1] : List Int).drop (0 + 1)) + 1 +
           (selGo (lswap ([2,1] : List Int)
              (selScan ([2,1] : List Int) 0 (0 + 1)
                ([2,1] : List Int).length).1 0)
              (0 + 1) ([2,1] : List Int).length).2.1,
         (selGo (lswap ([2,1] : List Int)
            (selScan ([2,1] : List Int) 0 (0 + 1)
              ([2,1] : List Int).length).1 0)
            (0 + 1) ([2,1] : List Int).length).2.2 + 1))) :=
  ⟨by decide, claim_C6 ([2,1] : List Int) 0 (by decide)⟩

/-- C7: For every already-sorted (non-decreasing) input range, each of the
five sorting functions leaves the range identical to the input; and
bubble_sort issues zero exchange notifications on such an input, because
its no-swap first pass triggers the early exit. -/
theorem claim_C7 (l : List α) (h : l.Sorted (· ≤ ·)) :
    bubble_sort l = (l, 0) ∧
    (shaker_sort l).1 = l ∧
    (selection_sort l).1 = l ∧
    (insertion_sort l).1 = l ∧
    (quicksort l).1 = l := by
  refine ⟨bubble_sort_of_sorted l h, ?_, ?_, ?_, ?_⟩
  · exact List.eq_of_perm_of_sorted (shaker_sort_sorted_perm l).2
      (shaker_sort_sorted_perm l).1 h
  · exact List.eq_of_perm_of_sorted (selection_sort_sorted_perm l).2
      (selection_sort_sorted_perm l).1 h
  · exact List.eq_of_perm_of_sorted (insertion_sort_sorted_perm l).2
      (insertion_sort_sorted_perm l).1 h
  · exact List.eq_of_perm_of_sorted (quicksort_sorted_perm l).2
      (quicksort_sorted_perm l).1 h

theorem claim_C7_witness :
    (([1,2,2,5] : List Int).Sorted (· ≤ ·)) ∧
    (bubble_sort ([1,2,2,5] : List Int) = ([1,2,2,5], 0) ∧
     (shaker_sort ([1,2,2,5] : List Int)).1 = [1,2,2,5] ∧
     (selection_sort ([1,2,2,5] : List Int)).1 = [1,2,2,5] ∧
     (insertion_sort ([1,2,2,5] : List Int)).1 = [1,2,2,5] ∧
     (quicksort ([1,2,2,5] : List Int)).1 = [1,2,2,5]) :=
  ⟨by decide, claim_C7 ([1,2,2,5] : List Int) (by decide)⟩

/-- C9: insertion_sort writes the held value into its hole and notifies
unconditionally at the end of each outer step, even when zero shifts
occurred and the written value equals the value already in place; hence on
an already-sorted input of length n it issues exactly n - 1 notifications
and every reported state equals the input. -/
theorem claim_C9 (l : List α) (h : l.Sorted (· ≤ ·)) :
    insertion_sort l = (l, l.length - 1) :=
  insertion_sort_of_sorted l h

theorem claim_C9_witness :
    (([3,3,7] : List Int).Sorted (· ≤ ·)) ∧
    insertion_sort ([3,3,7] : List Int) =
      ([3,3,7], ([3,3,7] : List Int).length - 1) :=
  ⟨by decide, claim_C9 ([3,3,7] : List Int) (by decide)⟩

/-- C10: selection_sort's candidate-minimum notification fires only on a
strictly smaller element, and the initial candidate never triggers one, so
on any non-decreasing input (including all-equal values) selection_sort
issues zero notifications of either kind, performs no exchange and leaves
the list unchanged. -/
theorem claim_C10 (l : List α) (h : l.Sorted (· ≤ ·)) :
    selection_sort l = (l, 0, 0) :=
  selection_sort_of_sorted l h

theorem claim_C10_witness :
    (([4,4,4] : List Int).Sorted (· ≤ ·)) ∧
    selection_sort ([4,4,4] : List Int) = ([4,4,4], 0, 0) :=
  ⟨by decide, claim_C10 ([4,4,4] : List Int) (by decide)⟩

end SortingAlgorithms
